import Mathlib

/-!
Verification of the SEO content analyzer scoring engine.

This file gives a shallow embedding of the content-scoring engine
(the class methods calculateWordStats, countWordSyllables, countSyllables,
countPolysyllabicWords, calculateReadabilityScores, analyzeKeywords,
extractTopKeywords, extractSemanticKeywords, analyzeHeadingStructure and
calculateSEOScore of the elaborated engine variant) and proves properties
of the embedded definitions.

Modelling conventions:
- Strings are handled through their character lists; the JavaScript regex
  based splits and scans are implemented as explicit structural recursions
  that mirror the regex semantics (documented at each definition).
- JavaScript numbers are modelled as rationals; Math.round is
  floor(x + 1/2), which matches JavaScript rounding including the negative
  half case.
- Math.sqrt (used only by the SMOG index once all guards have passed) is
  kept abstract as a function parameter, since its IEEE-754 value has no
  exact rational counterpart; no property proved here depends on it.
- The phrase regex of analyzeKeywords splices the keyword words into the
  RegExp source unescaped.  The embedding (matchPhraseRe, scanCountRe)
  interprets the resulting pattern over the fragment in which every
  keyword-word character stands for itself except '.', the any-character
  wildcard, with the \b assertions, the greedy backtracking \s+ gaps and
  the non-overlapping global scan of the engine; keyword words holding
  other regex metacharacters (operators, brackets, some of which make the
  RegExp constructor throw) lie outside the modelled fragment, and every
  theorem about phrase matching restricts its keyword accordingly.
-/

/-- Character class of the JavaScript regex token backslash-s
(whitespace) used by the engine splits and by String.prototype.trim. -/
def isJsSpace (c : Char) : Bool :=
  c = ' ' || c = '\t' || c = '\n' || c = '\x0b' || c = '\x0c' || c = '\r' ||
  c = '\u00A0' || c = '\u1680' || ('\u2000' ≤ c && c ≤ '\u200A') ||
  c = '\u2028' || c = '\u2029' || c = '\u202F' || c = '\u205F' ||
  c = '\u3000' || c = '\uFEFF'

/-- Character class of the JavaScript regex token backslash-w:
ASCII letters, digits and underscore. -/
def isWordChar (c : Char) : Bool :=
  ('a' ≤ c && c ≤ 'z') || ('A' ≤ c && c ≤ 'Z') || ('0' ≤ c && c ≤ '9') || c = '_'

/-- Lowercase ASCII letter, the class kept by replace(/[^a-z]/g, ''). -/
def isLowerAlpha (c : Char) : Bool :=
  'a' ≤ c && c ≤ 'z'

/-- ASCII alphanumeric, the class kept by replace(/[^a-z0-9]/gi, ''). -/
def isAlnum (c : Char) : Bool :=
  ('a' ≤ c && c ≤ 'z') || ('A' ≤ c && c ≤ 'Z') || ('0' ≤ c && c ≤ '9')

/-- ASCII digit, the class of the regex test /^[0-9]+$/. -/
def isDigitChar (c : Char) : Bool :=
  '0' ≤ c && c ≤ '9'

/-- Vowel class [aeiouy] of the syllable counter. -/
def isVowelY (c : Char) : Bool :=
  c = 'a' || c = 'e' || c = 'i' || c = 'o' || c = 'u' || c = 'y'

/-- ASCII model of String.prototype.toLowerCase on one character. -/
def jsToLower (c : Char) : Char :=
  if 'A' ≤ c && c ≤ 'Z' then Char.ofNat (c.toNat + 32) else c

/-- toLowerCase over a character list. -/
def lowerL (cs : List Char) : List Char :=
  cs.map jsToLower

/-- String.prototype.trim: drop JavaScript whitespace from both ends. -/
def jsTrim (cs : List Char) : List Char :=
  ((cs.dropWhile isJsSpace).reverse.dropWhile isJsSpace).reverse

mutual

/-- Segment builder for String.prototype.split with a character-class run
separator (such as split on backslash-s-plus): collects the current
segment.  On a separator character the segment is emitted and the rest of
the run is skipped. -/
def skGo (p : Char → Bool) : List Char → List Char → List (List Char)
  | [], acc => [acc.reverse]
  | c :: rest, acc =>
    if p c then acc.reverse :: skSkip p rest else skGo p rest (c :: acc)

/-- Companion of skGo: inside a separator run; on the first non-separator
character a new segment starts. -/
def skSkip (p : Char → Bool) : List Char → List (List Char)
  | [] => [[]]
  | c :: rest => if p c then skSkip p rest else skGo p rest [c]

end

/-- JavaScript text.split(/\s+/) with no filtering: empty segments can
appear at the two ends (and "" splits to [""]). -/
def splitWsKeep (cs : List Char) : List (List Char) :=
  skGo isJsSpace cs []

/-- JavaScript text.split(/\s+/).filter(word => word.length > 0). -/
def splitWs (cs : List Char) : List (List Char) :=
  (splitWsKeep cs).filter (fun w => decide (0 < w.length))

/-- JavaScript Math.round, on rationals: floor(x + 1/2).  (Rat.floor is
used so that the definition evaluates inside the kernel.) -/
def jsRound (q : ℚ) : ℤ :=
  (q + 1/2).floor

/-- Rounding to one decimal: Math.round(x * 10) / 10. -/
def jsRound1 (q : ℚ) : ℚ :=
  (jsRound (q * 10) : ℚ) / 10

/-- Rounding to two decimals: Math.round(x * 100) / 100. -/
def jsRound2 (q : ℚ) : ℚ :=
  (jsRound (q * 100) : ℚ) / 100

/-- Sentence delimiter class of split(/[.!?]+/). -/
def isSentenceDelim (c : Char) : Bool :=
  c = '.' || c = '!' || c = '?'

/-- Segments of content.split(/[.!?]+/) (runs of delimiters separate,
empty segments kept; the engine filters them afterwards). -/
def splitSentencesKeep (cs : List Char) : List (List Char) :=
  skGo isSentenceDelim cs []

/-- Paragraph splitter, JavaScript text.split(/\n\s*\n/).
A match of the separator regex starts at a newline and, thanks to the
greedy backslash-s-star followed by a mandatory newline, extends to the
last newline of the maximal whitespace run that follows.  The skip
counter carries the number of separator characters still to consume, so
the recursion stays structural. -/
def paraGo : Nat → List Char → List Char → List (List Char)
  | _ + 1, acc, [] => [acc.reverse]
  | skip + 1, acc, _ :: rest => paraGo skip acc rest
  | 0, acc, [] => [acc.reverse]
  | 0, acc, c :: rest =>
    if c = '\n' then
      let r := rest.takeWhile isJsSpace
      if r.contains '\n' then
        let k := (r.reverse.takeWhile (fun x => !(x = '\n'))).length
        acc.reverse :: paraGo (r.length - k) [] rest
      else
        paraGo 0 (c :: acc) rest
    else
      paraGo 0 (c :: acc) rest

/-- content.split(/\n\s*\n/), empty segments kept. -/
def splitParasKeep (cs : List Char) : List (List Char) :=
  paraGo 0 [] cs

/-- Reading time formula of calculateWordStats:
Math.round((words / 238) * 1.1 * 10) / 10. -/
def readingTimeOfWords (words : Nat) : ℚ :=
  (jsRound ((words : ℚ) / 238 * (11/10) * 10) : ℚ) / 10

/-- Record returned by calculateWordStats. -/
structure WordStats where
  words : Nat
  characters : Nat
  sentences : Nat
  paragraphs : Nat
  readingTime : ℚ
  deriving DecidableEq, Repr

/-- Embedding of calculateWordStats: the engine trims the content, then
counts whitespace-separated tokens, characters of the trimmed text,
non-blank sentence segments and non-blank paragraph segments, and the
reading time at 238 words per minute with the 1.1 scanning factor. -/
def calculateWordStats (content : String) : WordStats :=
  let text := jsTrim content.data
  if text.isEmpty then ⟨0, 0, 0, 0, 0⟩
  else
    { words := (splitWs text).length
      characters := text.length
      sentences := ((splitSentencesKeep text).filter
        (fun s => decide (0 < (jsTrim s).length))).length
      paragraphs := ((splitParasKeep text).filter
        (fun s => decide (0 < (jsTrim s).length))).length
      readingTime := readingTimeOfWords (splitWs text).length }

/-- Suffix stripping of the syllable counter: replace(/(ed|es|s)$/, '').
The regex replaces the leftmost match, which for these three overlapping
suffixes is the ordered ends-with test below. -/
def stripEdEsS (w : List Char) : List Char :=
  if List.isSuffixOf "ed".data w then w.take (w.length - 2)
  else if List.isSuffixOf "es".data w then w.take (w.length - 2)
  else if List.isSuffixOf "s".data w then w.take (w.length - 1)
  else w

/-- Vowel-group loop of countWordSyllables.  A 'y' at position 0 or right
after a vowel is skipped with a continue statement, which also skips the
update of the previous-was-vowel flag; prevC tracks the actual previous
character, matching the word[i - 1] lookup of the source. -/
def syllableLoop : Option Char → Bool → Nat → List Char → Nat
  | _, _, sylls, [] => sylls
  | prevC, prevWasVowel, sylls, c :: rest =>
    if c = 'y' && (match prevC with | none => true | some p => isVowelY p) then
      syllableLoop (some c) prevWasVowel sylls rest
    else
      let isV := isVowelY c
      syllableLoop (some c) isV (if isV && !prevWasVowel then sylls + 1 else sylls) rest

/-- Embedding of countWordSyllables: strip non-letters (before the ASCII
lowercasing, as in the source), return 0 for an empty residue, 1 for a
residue of at most three letters, and otherwise strip an ed/es/s suffix,
count vowel-group transitions, apply the silent-e and consonant-le
adjustments, and floor at 1. -/
def countWordSyllables (w : List Char) : Nat :=
  let word := lowerL (w.filter isLowerAlpha)
  if word.length = 0 then 0
  else if word.length ≤ 3 then 1
  else
    let word2 := stripEdEsS word
    let s1 := syllableLoop none false 0 word2
    let s2 :=
      if List.isSuffixOf "e".data word2 && decide (1 < s1) &&
          decide (2 < word2.length) && !(isVowelY (word2.getD (word2.length - 2) ' ')) then
        s1 - 1
      else s1
    let s3 :=
      if List.isSuffixOf "le".data word2 && decide (2 < word2.length) &&
          !(isVowelY (word2.getD (word2.length - 3) ' ')) then
        s2 + 1
      else s2
    max 1 s3

/-- countSyllables: sum of per-word counts over the whitespace tokens of
the lowercased content. -/
def countSyllables (content : String) : Nat :=
  ((splitWs (lowerL content.data)).map countWordSyllables).sum

/-- countPolysyllabicWords: tokens whose syllable count is at least 3. -/
def countPolysyllabicWords (content : String) : Nat :=
  (splitWs (lowerL content.data)).countP (fun w => decide (3 ≤ countWordSyllables w))

/-- Flesch Reading Ease grade label tiers of getFleschEaseGrade. -/
def getFleschEaseGrade (score : ℚ) : String :=
  if 90 ≤ score then "Very Easy (5th grade)"
  else if 80 ≤ score then "Easy (6th grade)"
  else if 70 ≤ score then "Fairly Easy (7th grade)"
  else if 60 ≤ score then "Standard (8th-9th grade)"
  else if 50 ≤ score then "Fairly Difficult (10th-12th grade)"
  else if 30 ≤ score then "Difficult (College)"
  else "Very Difficult (Graduate)"

/-- Shared grade-to-label map getGradeDescription. -/
def getGradeDescription (grade : ℚ) : String :=
  let gradeLevel := jsRound grade
  if gradeLevel ≤ 6 then toString gradeLevel ++ "th grade"
  else if gradeLevel ≤ 12 then toString gradeLevel ++ "th grade"
  else if gradeLevel ≤ 16 then "College level (" ++ toString (gradeLevel - 12) ++ " years)"
  else "Graduate level"

/-- Record returned by calculateReadabilityScores. -/
structure ReadabilityScores where
  fleschEase : ℚ
  fleschKincaid : ℚ
  smogIndex : ℚ
  fleschEaseGrade : String
  fleschKincaidGrade : String
  smogGrade : String
  deriving DecidableEq, Repr

/-- Embedding of calculateReadabilityScores.  sqrtFn abstracts Math.sqrt
(floating point); it is reached only after every guard has passed.  The
first guard (no words or no sentences) returns the N/A record, the second
guard (no syllables) returns the distinct no-text record, and otherwise
the three indices are computed and rounded to one decimal while the
labels are computed from the unrounded values, as in the source. -/
def calculateReadabilityScores (sqrtFn : ℚ → ℚ) (content : String) : ReadabilityScores :=
  let ws := calculateWordStats content
  let words := ws.words
  let sentences := ws.sentences
  if words = 0 ∨ sentences = 0 then
    ⟨0, 0, 0, "N/A", "N/A", "N/A"⟩
  else
    let syllables := countSyllables content
    let polysyllabicWords := countPolysyllabicWords content
    if syllables = 0 then
      ⟨0, 0, 0, "No text to analyze", "No text to analyze", "No text to analyze"⟩
    else
      let wordsPerSentence : ℚ := if 0 < sentences then (words : ℚ) / sentences else 0
      let syllablesPerWord : ℚ := if 0 < words then (syllables : ℚ) / words else 0
      let fleschEase : ℚ :=
        max 0 (min 100 (206835/1000 - 1015/1000 * wordsPerSentence - 846/10 * syllablesPerWord))
      let fleschKincaid : ℚ :=
        max 0 (39/100 * wordsPerSentence + 118/10 * syllablesPerWord - 1559/100)
      let smogIndex : ℚ :=
        if 30 ≤ sentences then
          let smogValue : ℚ := ((polysyllabicWords : ℚ) * 30) / sentences
          if 0 ≤ smogValue then 1043/1000 * sqrtFn smogValue + 31291/10000 else 0
        else
          1043/1000 * sqrtFn (max 0 (polysyllabicWords : ℚ)) + 31291/10000
      ⟨jsRound1 fleschEase, jsRound1 fleschKincaid, jsRound1 smogIndex,
       getFleschEaseGrade fleschEase, getGradeDescription fleschKincaid,
       getGradeDescription smogIndex⟩

/-- Literal list-prefix test (used by the phrase scanner and substring
test). -/
def isPrefixL : List Char → List Char → Bool
  | [], _ => true
  | _ :: _, [] => false
  | p :: ps, c :: cs => p = c && isPrefixL ps cs

/-- JavaScript String.prototype.includes: pat occurs contiguously in hay
(the empty pattern always occurs). -/
def jsIncludes : List Char → List Char → Bool
  | [], pat => pat.isEmpty
  | c :: rest, pat => isPrefixL pat (c :: rest) || jsIncludes rest pat

/-- content.toLowerCase().replace(/[^\w\s]/g, ' '): lowercase, then
replace every character that is neither a word character nor whitespace
by a space. -/
def normalizeText (content : String) : List Char :=
  (lowerL content.data).map (fun c => if isWordChar c || isJsSpace c then c else ' ')

/-- Stemming of the single-word keyword branch:
replace(/(ing|ed|er|est|ly|s)$/, '').  The six suffixes are pairwise
non-overlapping at the word end except between lengths, and a longer
suffix always starts further left, so the leftmost-match rule of replace
is the ordered ends-with test below. -/
def stemCommon (w : List Char) : List Char :=
  if List.isSuffixOf "ing".data w then w.take (w.length - 3)
  else if List.isSuffixOf "ed".data w then w.take (w.length - 2)
  else if List.isSuffixOf "er".data w then w.take (w.length - 2)
  else if List.isSuffixOf "est".data w then w.take (w.length - 3)
  else if List.isSuffixOf "ly".data w then w.take (w.length - 2)
  else if List.isSuffixOf "s".data w then w.take (w.length - 1)
  else w

/-- keyword.split(/\s+/).filter(w => w.length > 0) applied to the
lowercased trimmed target keyword. -/
def keywordWordsOf (targetKeyword : String) : List (List Char) :=
  splitWs (jsTrim (lowerL targetKeyword.data))

/-- content.trim().split(/\s+/).filter(word => word.length > 0).length,
the fallback of the totalWords computation in analyzeKeywords. -/
def fallbackTotalWords (content : String) : Nat :=
  (splitWs (jsTrim content.data)).length

/-- this.analysisResults?.wordStats?.words || fallback: the engine reads
the word count stored by the previous analysis run (modelled by
cachedWords); absence and the falsy value 0 both fall back to a count of
the current content. -/
def effectiveTotalWords (content : String) (cachedWords : Option Nat) : Nat :=
  match cachedWords with
  | some w => if w = 0 then fallbackTotalWords content else w
  | none => fallbackTotalWords content

/-- The word-character specialization of one phrase-regex attempt: for
keyword words made only of word characters each word matches literally,
the trailing word boundary demands a non-word character or the end of
the text, and the greedy backslash-s-plus between words consumes the
maximal whitespace run (the only viable choice, since a shorter gap
leaves the next word facing whitespace).  matchPhraseRe below embeds the
regex attempt in general; the lemma matchPhraseRe_eq_matchKws proves the
two agree on word-character keywords, and this simpler recursion carries
the window-counting invariant. -/
def matchKws : List (List Char) → List Char → Option (List Char)
  | [], _ => none
  | [kw], rest =>
    if kw.isEmpty then none
    else if isPrefixL kw rest then
      let r := rest.drop kw.length
      match r with
      | [] => some []
      | c :: _ => if isWordChar c then none else some r
    else none
  | kw :: kws, rest =>
    if kw.isEmpty then none
    else if isPrefixL kw rest then
      let r := rest.drop kw.length
      let wlen := (r.takeWhile isJsSpace).length
      if wlen = 0 then none else matchKws kws (r.drop wlen)
    else none

/-- Global scan with the word-character specialization matchKws: left to
right, non-overlapping, with a leading word boundary (the previous
character, tracked as a word-or-not flag, must not be a word character).
After a match the skip counter consumes the matched span, so the
recursion stays structural; the flag resumes as true because a literal
match ends in a word character of the final keyword word
(scanCountRe_eq_scanCount proves this scan equal to the full regex scan
on word-character keywords). -/
def scanCount (kws : List (List Char)) : Nat → Bool → List Char → Nat
  | _ + 1, _, [] => 0
  | skip + 1, _, _ :: rest => scanCount kws skip true rest
  | 0, _, [] => 0
  | 0, prevWord, c :: rest =>
    if prevWord then scanCount kws 0 (isWordChar c) rest
    else
      match matchKws kws (c :: rest) with
      | some r => 1 + scanCount kws ((c :: rest).length - r.length - 1) true rest
      | none => scanCount kws 0 (isWordChar c) rest

/-- The exact-match count over the word-character specialization
(equal to phraseMatchCountRe on word-character keywords). -/
def phraseMatchCount (text : List Char) (kws : List (List Char)) : Nat :=
  scanCount kws 0 false text

/-- JavaScript line terminators: the characters the regex wildcard '.'
does not match (the s flag is not set). -/
def isLineTerm (c : Char) : Bool :=
  c = '\n' || c = '\r' || c = '\u2028' || c = '\u2029'

/-- One pattern character of a spliced keyword word against one text
character.  analyzeKeywords interpolates the keyword words into the
RegExp source unescaped, so a '.' in a keyword word is the any-character
wildcard; every other character of the modelled fragment stands for
itself (keyword and text are both lowercased already, so the i flag adds
nothing on this fragment). -/
def atomMatch (a x : Char) : Bool :=
  if a = '.' then !(isLineTerm x) else x = a

/-- Wordness of an optional character: the ends of the text count as
non-word for the \b assertion. -/
def wordOpt : Option Char → Bool
  | some c => isWordChar c
  | none => false

/-- Match the characters of one spliced keyword word, one text character
per pattern character; returns the last consumed text character (the \b
assertion after the word needs it) and the remaining text. -/
def matchAtoms : List Char → Option Char → List Char → Option (Option Char × List Char)
  | [], prev, l => some (prev, l)
  | _ :: _, _, [] => none
  | a :: as, _, x :: r => if atomMatch a x then matchAtoms as (some x) r else none

/-- Backtracking driver of a greedy \s+: try the longest gap first, then
shorter gaps down to a single character, the regex engine's order. -/
def firstSome {α : Type} (f : Nat → Option α) : Nat → Option α
  | 0 => none
  | k + 1 =>
    match f (k + 1) with
    | some r => some r
    | none => firstSome f k

/-- After a keyword word just matched (prev holds its last consumed
character): match \s+ and the next word for each remaining word, then
the trailing \b.  Each gap length is chosen greedily with backtracking;
a failure deeper in the pattern backtracks the nearest gap first, which
the nesting realizes. -/
def matchRest : List (List Char) → Option Char → List Char → Option (List Char)
  | [], prev, l => if wordOpt prev != wordOpt l.head? then some l else none
  | w :: ws, _, l =>
    firstSome (fun k =>
        match matchAtoms w (l.get? (k - 1)) (l.drop k) with
        | none => none
        | some (p2, r) => matchRest ws p2 r)
      (l.takeWhile isJsSpace).length

/-- One attempt of the phrase regex \bkw1\s+...\s+kwN\b at a position:
the leading \b compares the previous character's wordness (prevW) with
the first text character, then the first word's characters match, then
matchRest handles the remaining words and the trailing \b. -/
def matchPhraseRe : List (List Char) → Bool → List Char → Option (List Char)
  | [], _, _ => none
  | w :: ws, prevW, l =>
    if prevW != wordOpt l.head? then
      match matchAtoms w none l with
      | none => none
      | some (p2, r) => matchRest ws p2 r
    else none

/-- Global scan of the phrase regex, as text.match(regex).length walks
the text: left to right, non-overlapping; the flag carries the wordness
of the previous text character for the leading \b, and after a match the
skip counter walks the consumed span, updating the flag from each
skipped character so that it resumes as the wordness of the last
consumed character. -/
def scanCountRe (kws : List (List Char)) : Nat → Bool → List Char → Nat
  | _ + 1, _, [] => 0
  | skip + 1, _, c :: rest => scanCountRe kws skip (isWordChar c) rest
  | 0, _, [] => 0
  | 0, prevW, c :: rest =>
    match matchPhraseRe kws prevW (c :: rest) with
    | some r => 1 + scanCountRe kws ((c :: rest).length - r.length - 1) (isWordChar c) rest
    | none => scanCountRe kws 0 (isWordChar c) rest

/-- (text.match(phraseRegex) || []).length of the multi-word branch, for
keyword words inside the modelled regex fragment (characters standing
for themselves plus the '.' wildcard). -/
def phraseMatchCountRe (text : List Char) (kws : List (List Char)) : Nat :=
  scanCountRe kws 0 false text

/-- Math.ceil(n * 0.7), exactly the rational ceiling of 7n/10. -/
def ceil07 (n : Nat) : Nat :=
  (7 * n + 9) / 10

/-- The token windows words.slice(i, i + n) for i from 0 to
words.length - n, in order. -/
def slidingWindows (n : Nat) : List α → List (List α)
  | [] => if n = 0 then [[]] else []
  | x :: rest =>
    if (x :: rest).length < n then [] else (x :: rest).take n :: slidingWindows n rest

/-- Test of one window word against the keyword words:
keywordWords.some(kw => word.includes(kw) || kw.includes(word)). -/
def windowMatchBool (kws : List (List Char)) (w : List Char) : Bool :=
  kws.any (fun kw => jsIncludes w kw || jsIncludes kw w)

/-- A window counts as a partial match when at least
Math.ceil(keywordWords.length * 0.7) of its words pass windowMatchBool. -/
def windowPass (kws : List (List Char)) (slice : List (List Char)) : Bool :=
  decide (ceil07 kws.length ≤ slice.countP (windowMatchBool kws))

/-- The partialMatches counter of the multi-word branch: one count per
passing window of text.split(/\s+/) (unfiltered, hence possibly with
empty boundary tokens). -/
def countPartialWindows (kws : List (List Char)) (words : List (List Char)) : Nat :=
  (slidingWindows kws.length words).countP (windowPass kws)

/-- Single-word keyword counting: exact match of the punctuation-stripped
token, or equal stems (suffix stripping) when the stem is longer than two
characters. -/
def singleKeywordCount (content : String) (targetWord : List Char) : Nat :=
  (splitWs (normalizeText content)).countP (fun w =>
    let cleanWord := w.filter isWordChar
    cleanWord == targetWord ||
      (stemCommon cleanWord == stemCommon targetWord &&
        decide (2 < (stemCommon cleanWord).length)))

/-- primaryKeywordCount of analyzeKeywords: the single-word branch, or
for a phrase the exact regex matches (phraseMatchCountRe, the unescaped
spliced pattern interpreted over the modelled fragment) plus
Math.floor(partialMatches * 0.5) = partialMatches / 2. -/
def primaryKeywordCountOf (content targetKeyword : String) : Nat :=
  let keywordWords := keywordWordsOf targetKeyword
  if keywordWords.length = 1 then
    singleKeywordCount content ((keywordWords.headD []).filter isWordChar)
  else
    let text := normalizeText content
    phraseMatchCountRe text keywordWords +
      countPartialWindows keywordWords (splitWsKeep text) / 2

/-- The (unrounded) primaryKeywordDensity variable of analyzeKeywords:
count / totalWords * 100 with a zero-denominator guard, where totalWords
comes from effectiveTotalWords. -/
def rawKeywordDensity (content targetKeyword : String) (cachedWords : Option Nat) : ℚ :=
  let totalWords := effectiveTotalWords content cachedWords
  if 0 < totalWords then
    (primaryKeywordCountOf content targetKeyword : ℚ) / totalWords * 100
  else 0

/-- Density status bands of analyzeKeywords, applied to the unrounded
density variable. -/
def densityStatus (d : ℚ) : String :=
  if d = 0 then "Keyword not found in content"
  else if d < 1/2 then "Keyword density too low"
  else if d ≤ 2 then "Optimal keyword density"
  else if d ≤ 3 then "Keyword density slightly high"
  else "Keyword density too high - risk of over-optimization"

/-- Stop-word list of extractTopKeywords, verbatim. -/
def stopWords : List String :=
  ["the", "a", "an", "and", "or", "but", "in", "on", "at", "to", "for", "of",
   "with", "by", "is", "are", "was", "were", "be", "been", "have", "has",
   "had", "do", "does", "did", "will", "would", "could", "should", "may",
   "might", "must", "can", "this", "that", "these", "those", "i", "you",
   "he", "she", "it", "we", "they", "me", "him", "her", "us", "them", "my",
   "your", "his", "her", "its", "our", "their", "mine", "yours", "hers",
   "ours", "theirs", "what", "where", "when", "why", "how", "which", "who",
   "whom", "whose", "if", "unless", "until", "while", "although", "though",
   "because", "since", "so", "than", "as", "like", "about", "above",
   "below", "up", "down", "out", "off", "over", "under", "again", "further",
   "then", "once"]

/-- Token admission test of extractTopKeywords: at least three characters
after cleaning, not a stop word, not purely numeric. -/
def topKeywordFilter (cleanWord : List Char) : Bool :=
  decide (3 ≤ cleanWord.length) && !(stopWords.contains cleanWord.asString) &&
    !(!cleanWord.isEmpty && cleanWord.all isDigitChar)

/-- In-place increment in an association list that preserves first-seen
insertion order (JavaScript object keys here are never integer-like, so
Object.entries returns insertion order). -/
def bumpCount : List (List Char × Nat) → List Char → List (List Char × Nat)
  | [], w => [(w, 1)]
  | (k, n) :: t, w => if k = w then (k, n + 1) :: t else (k, n) :: bumpCount t w

/-- Stable insertion for the descending count sort; an element moves past
another only when that other has a strictly larger count, so ties keep
insertion order, as Array.prototype.sort (stable) with the comparator
(a, b) => b.count - a.count does. -/
def insertByCountDesc (x : List Char × Nat) : List (List Char × Nat) → List (List Char × Nat)
  | [] => [x]
  | y :: ys => if x.2 < y.2 then y :: insertByCountDesc x ys else x :: y :: ys

/-- Stable sort by descending count. -/
def sortByCountDesc (l : List (List Char × Nat)) : List (List Char × Nat) :=
  l.foldr insertByCountDesc []

/-- One entry of topKeywords. -/
structure TopKeyword where
  word : String
  count : Nat
  density : ℚ
  deriving DecidableEq, Repr

/-- Embedding of extractTopKeywords over the cleaned word list: count
admitted tokens, sort by descending count with ties in first-seen order,
take 10, and attach Math.round(count / words.length * 10000) / 100. -/
def extractTopKeywords (words : List (List Char)) : List TopKeyword :=
  let wordCounts := words.foldl (fun acc w =>
    let cleanWord := lowerL (w.filter isAlnum)
    if topKeywordFilter cleanWord then bumpCount acc cleanWord else acc) []
  ((sortByCountDesc wordCounts).take 10).map (fun e =>
    { word := e.1.asString, count := e.2
      density := (jsRound ((e.2 : ℚ) / (words.length : ℚ) * 10000) : ℚ) / 100 })

/-- Candidate list of extractSemanticKeywords, in source order. -/
def semanticPatterns (keyword : List Char) : List (List Char) :=
  [keyword ++ "s".data, keyword ++ "ed".data, keyword ++ "ing".data,
   keyword ++ "er".data, keyword ++ "est".data, "best ".data ++ keyword,
   keyword ++ " guide".data, keyword ++ " tips".data, "how to ".data ++ keyword]

/-- Embedding of extractSemanticKeywords: candidates that occur as a
substring of the lowercased content and differ from the keyword, capped
at five.  (The lowercased keyword here is not trimmed, matching the
source; only the guard uses trim.) -/
def extractSemanticKeywords (content targetKeyword : String) : List String :=
  if (jsTrim targetKeyword.data).isEmpty then []
  else
    let text := lowerL content.data
    let keyword := lowerL targetKeyword.data
    (((semanticPatterns keyword).filter
        (fun pat => jsIncludes text pat && !(pat == keyword))).map List.asString).take 5

/-- Record returned by analyzeKeywords. -/
structure KeywordAnalysis where
  primaryKeywordDensity : ℚ
  primaryKeywordCount : Nat
  optimalRange : String
  status : String
  topKeywords : List TopKeyword
  semanticKeywords : List String
  deriving DecidableEq, Repr

/-- Embedding of analyzeKeywords.  cachedWords models
this.analysisResults?.wordStats?.words, the word count stored by the
previous analysis run (the engine assigns analysisResults only after all
analyses of a run finish, so during a run the field still holds the
previous run's stats). -/
def analyzeKeywords (content targetKeyword : String) (cachedWords : Option Nat) :
    KeywordAnalysis :=
  if (jsTrim content.data).isEmpty then
    ⟨0, 0, "1-2%", "No content to analyze", [], []⟩
  else
    let cleanedWords := splitWs (normalizeText content)
    if (jsTrim targetKeyword.data).isEmpty then
      { primaryKeywordDensity := 0
        primaryKeywordCount := 0
        optimalRange := "0.5-2%"
        status := "Enter target keyword for analysis"
        topKeywords := extractTopKeywords cleanedWords
        semanticKeywords := extractSemanticKeywords content targetKeyword }
    else
      let d := rawKeywordDensity content targetKeyword cachedWords
      { primaryKeywordDensity := jsRound2 d
        primaryKeywordCount := primaryKeywordCountOf content targetKeyword
        optimalRange := "0.5-2%"
        status := densityStatus d
        topKeywords := extractTopKeywords cleanedWords
        semanticKeywords := extractSemanticKeywords content targetKeyword }

/-- One attempt of the multiline markdown heading regex
/^#{1,6}\s+(.+)$/ at the head of the list (the caller guarantees a line
start).  Returns (level, captured text, match length).  The hash run may
not exceed six (a seventh hash blocks every backtrack of the counted
quantifier); at least one whitespace character must follow; then the
greedy backslash-s-plus is taken maximally and the dot-plus capture runs
to the end of the line.  When the whitespace run reaches the end of the
string the engine backtracks, leaving the last non-newline whitespace
character beyond the first as the capture, if there is one. -/
def mdTry (l : List Char) : Option (Nat × List Char × Nat) :=
  let h := (l.takeWhile (fun c => c = '#')).length
  if h = 0 || 6 < h then none
  else
    let afterH := l.drop h
    let w := (afterH.takeWhile isJsSpace).length
    if w = 0 then none
    else
      let afterW := afterH.drop w
      if afterW.isEmpty then
        let tailPart := (afterH.take w).drop 1
        let core := (tailPart.reverse.dropWhile (fun c => c = '\n')).reverse
        if core.isEmpty then none
        else some (h, [core.getLastD ' '], h + core.length + 1)
      else
        let t := afterW.takeWhile (fun c => !(c = '\n'))
        some (h, t, h + w + t.length)

/-- Global scan of the markdown heading regex (matchAll): attempts only
at line starts at or past the end of the previous match, left to right.
The skip counter walks through a found match one character at a time so
the recursion stays structural; the line-start flag tracks whether the
previous character was a newline. -/
def mdScanGo : Nat → Bool → List Char → List (Nat × List Char)
  | _ + 1, _, [] => []
  | skip + 1, _, c :: rest => mdScanGo skip (c = '\n') rest
  | 0, _, [] => []
  | 0, atLineStart, c :: rest =>
    if atLineStart then
      match mdTry (c :: rest) with
      | some (lvl, txt, len) => (lvl, txt) :: mdScanGo (len - 1) (c = '\n') rest
      | none => mdScanGo 0 (c = '\n') rest
    else mdScanGo 0 (c = '\n') rest

/-- All markdown-style headings of the content, in source order. -/
def mdHeadings (cs : List Char) : List (Nat × List Char) :=
  mdScanGo 0 true cs

/-- One attempt of the inline markup heading regex
/<h([1-6])(?:[^>]*)>([^<]+)<\/h[1-6]>/i at the head of the list.
The attribute part takes every character up to the first closing angle
bracket; the inner text is the non-empty run up to the first opening
angle bracket, which must start a closing tag whose digit may differ
from the opening one. -/
def htmlTry (l : List Char) : Option (Nat × List Char × Nat) :=
  match l with
  | '<' :: c1 :: cd :: rest2 =>
    if (c1 = 'h' || c1 = 'H') && ('1' ≤ cd && cd ≤ '6') then
      let attrs := rest2.takeWhile (fun c => !(c = '>'))
      match rest2.drop attrs.length with
      | '>' :: rest3 =>
        let txt := rest3.takeWhile (fun c => !(c = '<'))
        if txt.isEmpty then none
        else
          match rest3.drop txt.length with
          | '<' :: '/' :: ch :: cd2 :: '>' :: _ =>
            if (ch = 'h' || ch = 'H') && ('1' ≤ cd2 && cd2 ≤ '6') then
              some (cd.toNat - '0'.toNat, txt, 3 + attrs.length + 1 + txt.length + 5)
            else none
          | _ => none
      | _ => none
    else none
  | _ => none

/-- Global scan of the inline markup heading regex (matchAll):
left to right, non-overlapping, skip counter as in mdScanGo. -/
def htmlScanGo : Nat → List Char → List (Nat × List Char)
  | _ + 1, [] => []
  | skip + 1, _ :: rest => htmlScanGo skip rest
  | 0, [] => []
  | 0, c :: rest =>
    match htmlTry (c :: rest) with
    | some (lvl, txt, len) => (lvl, txt) :: htmlScanGo (len - 1) rest
    | none => htmlScanGo 0 rest

/-- All inline markup headings of the content, in source order. -/
def htmlHeadings (cs : List Char) : List (Nat × List Char) :=
  htmlScanGo 0 cs

/-- One heading entry: level and trimmed text capped at 100 characters. -/
structure HeadingEntry where
  level : Nat
  text : String
  deriving DecidableEq, Repr

/-- The hierarchy check of analyzeHeadingStructure: scanning the heading
list with previousLevel starting at 0, each heading whose level exceeds
previousLevel + 1 counts one issue, and previousLevel is always updated
to the current level. -/
def hierarchyIssuesOf (headings : List HeadingEntry) : Nat :=
  (headings.foldl (fun st h => (h.level, if st.1 + 1 < h.level then st.2 + 1 else st.2))
    (0, 0)).2

/-- Record returned by analyzeHeadingStructure. -/
structure HeadingStructure where
  totalHeadings : Nat
  headings : List HeadingEntry
  headingCounts : Nat → Nat
  hasH1 : Bool
  multipleH1 : Bool
  structureScore : ℤ
  issues : List String
  headingCount : Nat
  h1Text : String

/-- Embedding of analyzeHeadingStructure.  The match list concatenates
all markdown-style matches (in source order) with all inline markup
matches (in source order), exactly as the spread of the two matchAll
results does.  The score starts at 100 and loses 30 without an H1, 20
for several H1 and 10 per hierarchy issue, floored at 0. -/
def analyzeHeadingStructure (content : String) : HeadingStructure :=
  let raws := mdHeadings content.data ++ htmlHeadings content.data
  let headings := raws.map (fun p => HeadingEntry.mk p.1 (((jsTrim p.2).take 100).asString))
  let headingCounts := fun lv => headings.countP (fun h => h.level == lv)
  let hasH1 := decide (0 < headingCounts 1)
  let multipleH1 := decide (1 < headingCounts 1)
  let hierarchyIssues := hierarchyIssuesOf headings
  let score : ℤ := 100 - (if hasH1 then 0 else 30) - (if multipleH1 then 20 else 0)
    - 10 * hierarchyIssues
  let issues :=
    (if hasH1 then [] else ["Missing H1 tag"]) ++
    (if multipleH1 then ["Multiple H1 tags found"] else []) ++
    (if 0 < hierarchyIssues then ["Heading hierarchy issues detected"] else [])
  let h1Text :=
    if hasH1 then ((headings.find? (fun h => h.level == 1)).map (fun h => h.text)).getD ""
    else ""
  { totalHeadings := headings.length
    headings := headings
    headingCounts := headingCounts
    hasH1 := hasH1
    multipleH1 := multipleH1
    structureScore := max 0 score
    issues := issues
    headingCount := headings.length
    h1Text := h1Text }

/-- Embedding of calculateContentQualityScore: word-count band (25),
keyword-density band on the reported rounded density (30), semantic
keyword count band (20), average sentence length band (15, skipped with
no sentences), vocabulary-richness ratio band (10), capped at 100. -/
def calculateContentQualityScore (wordStats : WordStats)
    (keywordAnalysis : KeywordAnalysis) : ℚ :=
  let wordCount := wordStats.words
  let s1 : ℚ :=
    if 1500 ≤ wordCount ∧ wordCount ≤ 2500 then 25
    else if 1000 ≤ wordCount ∧ wordCount ≤ 3000 then 20
    else if 500 ≤ wordCount ∧ wordCount ≤ 4000 then 15
    else if 300 ≤ wordCount then 10
    else 0
  let density := keywordAnalysis.primaryKeywordDensity
  let s2 : ℚ :=
    if 8/10 ≤ density ∧ density ≤ 15/10 then 30
    else if 1/2 ≤ density ∧ density ≤ 5/2 then 25
    else if 0 < density ∧ density ≤ 7/2 then 15
    else if 7/2 < density then 5
    else 0
  let semanticCount := keywordAnalysis.semanticKeywords.length
  let s3 : ℚ :=
    if 10 ≤ semanticCount then 20
    else if 5 ≤ semanticCount then 15
    else if 2 ≤ semanticCount then 10
    else 0
  let s4 : ℚ :=
    if 0 < wordStats.sentences then
      let avgWordsPerSentence : ℚ := (wordStats.words : ℚ) / (wordStats.sentences : ℚ)
      if 12 ≤ avgWordsPerSentence ∧ avgWordsPerSentence ≤ 18 then 15
      else if 8 ≤ avgWordsPerSentence ∧ avgWordsPerSentence ≤ 25 then 12
      else 8
    else 0
  let uniqueKeywordRatio : ℚ :=
    (keywordAnalysis.topKeywords.length : ℚ) / max 1 ((wordStats.words : ℚ) / 100)
  let s5 : ℚ :=
    if 8/10 ≤ uniqueKeywordRatio then 10
    else if 1/2 ≤ uniqueKeywordRatio then 7
    else 3
  min 100 (0 + s1 + s2 + s3 + s4 + s5)

/-- Embedding of calculateTechnicalSEOScore: H1 presence with
keyword-in-H1 bonus, single-H1 bonus, heading-count band, meta
description length band with keyword-in-meta bonus, and the analysis
depth fraction over six boolean factors scaled to 30, capped at 100. -/
def calculateTechnicalSEOScore (headingStructure : HeadingStructure)
    (keywordAnalysis : KeywordAnalysis) (targetKeyword metaDescription : String) : ℚ :=
  let s1 : ℚ :=
    if headingStructure.hasH1 then
      15 + (if !(targetKeyword == "") && !(headingStructure.h1Text == "") &&
              jsIncludes (lowerL headingStructure.h1Text.data) (lowerL targetKeyword.data)
            then 10 else 0)
    else 0
  let s2 : ℚ := if headingStructure.multipleH1 then 0 else 10
  let totalHeadings := headingStructure.headingCount
  let s3 : ℚ :=
    if 3 ≤ totalHeadings ∧ totalHeadings ≤ 10 then 10
    else if 0 < totalHeadings then 5
    else 0
  let metaLength := metaDescription.length
  let s4 : ℚ :=
    if 120 ≤ metaLength ∧ metaLength ≤ 158 then
      20 + (if !(targetKeyword == "") && !(metaDescription == "") &&
              jsIncludes (lowerL metaDescription.data) (lowerL targetKeyword.data)
            then 10 else 0)
    else if 100 ≤ metaLength ∧ metaLength ≤ 180 then 15
    else if 0 < metaLength then 5
    else 0
  let analysisFactors : List Bool :=
    [decide (0 < keywordAnalysis.primaryKeywordCount),
     decide (5 ≤ keywordAnalysis.topKeywords.length),
     decide (0 < (jsTrim targetKeyword.data).length),
     decide (0 < metaLength),
     headingStructure.hasH1,
     decide (2 ≤ totalHeadings)]
  let activeFactors := analysisFactors.countP id
  let s5 : ℚ := (jsRound ((activeFactors : ℚ) / (analysisFactors.length : ℚ) * 30) : ℚ)
  min 100 (0 + s1 + s2 + s3 + s4 + s5)

/-- Embedding of calculateReadabilityScore: Flesch-Kincaid band (40),
Flesch Ease band (30) and the Flesch-Kincaid versus SMOG consistency
band (30), capped at 100. -/
def calculateReadabilityScore (readabilityScores : ReadabilityScores) : ℚ :=
  let fkGrade := readabilityScores.fleschKincaid
  let s1 : ℚ :=
    if 6 ≤ fkGrade ∧ fkGrade ≤ 8 then 40
    else if 5 ≤ fkGrade ∧ fkGrade ≤ 10 then 35
    else if 4 ≤ fkGrade ∧ fkGrade ≤ 12 then 25
    else 15
  let fleschEase := readabilityScores.fleschEase
  let s2 : ℚ :=
    if 60 ≤ fleschEase ∧ fleschEase ≤ 80 then 30
    else if 50 ≤ fleschEase ∧ fleschEase ≤ 90 then 25
    else if 30 ≤ fleschEase then 15
    else 5
  let readabilityConsistency := |fkGrade - readabilityScores.smogIndex|
  let s3 : ℚ :=
    if readabilityConsistency ≤ 2 then 30
    else if readabilityConsistency ≤ 4 then 20
    else 10
  min 100 (0 + s1 + s2 + s3)

/-- Embedding of calculateUserExperienceScore: reading-time band (50),
average sentence length band (30, skipped with no sentences) and content
length band (20), capped at 100. -/
def calculateUserExperienceScore (wordStats : WordStats) : ℚ :=
  let readingTime := wordStats.readingTime
  let s1 : ℚ :=
    if 3 ≤ readingTime ∧ readingTime ≤ 12 then 50
    else if 2 ≤ readingTime ∧ readingTime ≤ 20 then 40
    else if 1 ≤ readingTime then 25
    else 0
  let s2 : ℚ :=
    if 0 < wordStats.sentences then
      let avgSentenceLength : ℚ := (wordStats.words : ℚ) / (wordStats.sentences : ℚ)
      if avgSentenceLength ≤ 20 then 30
      else if avgSentenceLength ≤ 25 then 20
      else 10
    else 0
  let s3 : ℚ :=
    if 800 ≤ wordStats.words ∧ wordStats.words ≤ 3000 then 20
    else if 300 ≤ wordStats.words then 15
    else 5
  min 100 (0 + s1 + s2 + s3)

/-- Record returned by calculateSEOScore. -/
structure SEOScore where
  overall : ℤ
  contentQuality : ℤ
  technicalSEO : ℤ
  readability : ℤ
  userExperience : ℤ
  deriving DecidableEq, Repr

/-- Embedding of calculateSEOScore: the four category scores weighted
35/30/20/15 percent, rounded, and the overall clamped to [0, 100]. -/
def calculateSEOScore (wordStats : WordStats) (readabilityScores : ReadabilityScores)
    (keywordAnalysis : KeywordAnalysis) (headingStructure : HeadingStructure)
    (targetKeyword metaDescription : String) : SEOScore :=
  let cq := calculateContentQualityScore wordStats keywordAnalysis
  let ts := calculateTechnicalSEOScore headingStructure keywordAnalysis
    targetKeyword metaDescription
  let rd := calculateReadabilityScore readabilityScores
  let ux := calculateUserExperienceScore wordStats
  let overallScore := jsRound (cq * (35/100) + ts * (30/100) + rd * (20/100) + ux * (15/100))
  { overall := min 100 (max 0 overallScore)
    contentQuality := jsRound cq
    technicalSEO := jsRound ts
    readability := jsRound rd
    userExperience := jsRound ux }

/-- Test input: 201 words, the word apple followed by 200 copies of b. -/
def c3Content : String :=
  ⟨'a' :: 'p' :: 'p' :: 'l' :: 'e' :: (List.replicate 200 [' ', 'b']).flatten⟩

/-- Test input: 238 copies of the word a. -/
def c7Content : String :=
  ⟨'a' :: (List.replicate 237 [' ', 'a']).flatten⟩

/-- Test input mixing an inline markup heading (first in the source) with
a markdown heading (second in the source). -/
def c8Content : String :=
  "<h1>Title</h1>\n## Section"

/-- jsRound agrees with the mathematical floor of x + 1/2. -/
theorem jsRound_eq (q : ℚ) : jsRound q = ⌊q + 1/2⌋ := by
  rw [jsRound, Rat.floor_def', ← Rat.floor_def]

/-- An if-then-else of nonnegative rationals is nonnegative. -/
theorem iteNonneg {c : Prop} [Decidable c] {a b : ℚ} (ha : 0 ≤ a) (hb : 0 ≤ b) :
    0 ≤ ite c a b := by
  split_ifs <;> assumption

/-- jsRound of a nonnegative rational is nonnegative (as a rational). -/
theorem jsRound_cast_nonneg {q : ℚ} (hq : 0 ≤ q) : (0 : ℚ) ≤ (jsRound q : ℚ) := by
  rw [jsRound_eq]
  have : (0 : ℤ) ≤ ⌊q + 1/2⌋ := Int.le_floor.mpr (by push_cast; linarith)
  exact_mod_cast this

/-- jsToLower fixes lowercase ASCII letters. -/
theorem jsToLower_lower {c : Char} (h : isLowerAlpha c = true) : jsToLower c = c := by
  unfold jsToLower
  rw [if_neg]
  unfold isLowerAlpha at h
  simp only [Bool.and_eq_true, decide_eq_true_eq] at h ⊢
  rintro ⟨-, hz⟩
  exact absurd (le_trans h.1 hz) (by decide)

/-- C1: the keyword density is NOT a function of the current inputs only:
with a cached word count of 20 left by a previous analysis of different
content, a 10-word content with one keyword hit reports 5 percent, while
a fresh run over the same inputs reports 10 percent.  This refutes
identity of repeated runs across differing history and confirms the
density reads a word count cached from a previous analysis. -/
theorem c1_density_depends_on_cached_word_count :
    (analyzeKeywords "apple b c d e f g h i j" "apple" (some 20)).primaryKeywordDensity = 5 ∧
    (analyzeKeywords "apple b c d e f g h i j" "apple" none).primaryKeywordDensity = 10 := by
  with_unfolding_all decide

/-- C5 counterexample: on the input " a " the characters field is 1, not
the full raw length 3, because the engine measures the trimmed text. -/
theorem c5_characters_cex :
    ¬((calculateWordStats " a ").characters = " a ".length) := by decide

/-- C5 (amended): the characters field equals the length of the TRIMMED
input (internal whitespace counted, leading and trailing whitespace
excluded). -/
theorem c5_characters_trimmed_length (content : String) :
    (calculateWordStats content).characters = (jsTrim content.data).length := by
  by_cases h : (jsTrim content.data).isEmpty = true
  · simp [calculateWordStats, h, List.isEmpty_iff.mp h]
  · simp [calculateWordStats, h]

set_option maxRecDepth 8000 in
/-- C7 counterexample: a text of exactly 238 words yields a reading time
of 1.1 (round(1.1, 1) = 1.1), not the claimed 1.0. -/
theorem c7_reading_time_238_cex :
    (calculateWordStats c7Content).words = 238 ∧
    ¬((calculateWordStats c7Content).readingTime = 1) := by
  with_unfolding_all decide

/-- C7 (amended): the reading time field is readingTimeOfWords of the
word count; readingTimeOfWords is monotonically non-decreasing in the
word count; 238 words give 1.1 and 2380 words give 11.0. -/
theorem c7_reading_time_amended :
    (∀ content : String, (calculateWordStats content).readingTime
        = readingTimeOfWords (calculateWordStats content).words) ∧
    (∀ n m : Nat, n ≤ m → readingTimeOfWords n ≤ readingTimeOfWords m) ∧
    readingTimeOfWords 238 = 11/10 ∧ readingTimeOfWords 2380 = 11 := by
  refine ⟨?_, ?_, by with_unfolding_all decide, by with_unfolding_all decide⟩
  · intro content
    by_cases h : (jsTrim content.data).isEmpty = true
    · simp only [calculateWordStats, h, if_true]
      with_unfolding_all decide
    · simp [calculateWordStats, h]
  · intro n m hnm
    unfold readingTimeOfWords
    have h1 : jsRound ((n : ℚ) / 238 * (11/10) * 10) ≤ jsRound ((m : ℚ) / 238 * (11/10) * 10) := by
      rw [jsRound_eq, jsRound_eq]
      apply Int.floor_le_floor
      have hq : (n : ℚ) ≤ (m : ℚ) := by exact_mod_cast hnm
      linarith
    have h2 : (jsRound ((n : ℚ) / 238 * (11/10) * 10) : ℚ)
        ≤ (jsRound ((m : ℚ) / 238 * (11/10) * 10) : ℚ) := by exact_mod_cast h1
    linarith

/-- C7 witness: the monotonicity applied at 3 and 5 words. -/
theorem c7_reading_time_witness :
    readingTimeOfWords 3 ≤ readingTimeOfWords 5 :=
  c7_reading_time_amended.2.1 3 5 (by decide)

/-- C6 counterexample: content of two purely numeric words has positive
word and sentence counts but zero syllables, and the engine then labels
the grades with the distinct sentinel "No text to analyze", not "N/A". -/
theorem c6_na_sentinel_cex :
    (calculateWordStats "123 456").words ≠ 0 ∧
    (calculateWordStats "123 456").sentences ≠ 0 ∧
    countSyllables "123 456" = 0 ∧
    (calculateReadabilityScores (fun _ => 0) "123 456").smogGrade ≠ "N/A" := by
  with_unfolding_all decide

/-- C6 (amended): with zero words or zero sentences all scores are 0 and
all grades are the "N/A" sentinel; with positive words and sentences but
zero total syllables all scores are 0 and all grades are the distinct
"No text to analyze" sentinel.  No division is performed in either case,
for any interpretation of the square root. -/
theorem c6_readability_guard_amended (sqrtFn : ℚ → ℚ) (content : String) :
    ((calculateWordStats content).words = 0 ∨ (calculateWordStats content).sentences = 0 →
      calculateReadabilityScores sqrtFn content = ⟨0, 0, 0, "N/A", "N/A", "N/A"⟩) ∧
    (¬((calculateWordStats content).words = 0 ∨ (calculateWordStats content).sentences = 0) →
      countSyllables content = 0 →
      calculateReadabilityScores sqrtFn content =
        ⟨0, 0, 0, "No text to analyze", "No text to analyze", "No text to analyze"⟩) := by
  constructor
  · intro h
    simp only [calculateReadabilityScores]
    rw [if_pos h]
  · intro h hs
    simp only [calculateReadabilityScores]
    rw [if_neg h, if_pos hs]

/-- C6 witness: the two guard branches applied at concrete inputs. -/
theorem c6_guard_witness :
    calculateReadabilityScores (fun _ => 0) "" = ⟨0, 0, 0, "N/A", "N/A", "N/A"⟩ ∧
    calculateReadabilityScores (fun _ => 0) "123 456" =
      ⟨0, 0, 0, "No text to analyze", "No text to analyze", "No text to analyze"⟩ :=
  ⟨(c6_readability_guard_amended (fun _ => 0) "").1 (Or.inl (by decide)),
   (c6_readability_guard_amended (fun _ => 0) "123 456").2 (by decide) (by decide)⟩

set_option maxRecDepth 8000 in
/-- C3 counterexample: 201 words with one keyword hit have unrounded
density 100/201 (about 0.4975), so the status band picks "too low", but
the reported primaryKeywordDensity field rounds to exactly 0.5, which
the claimed bands map to the optimal status. -/
theorem c3_status_vs_rounded_density_cex :
    (analyzeKeywords c3Content "apple" none).primaryKeywordDensity = 1/2 ∧
    (analyzeKeywords c3Content "apple" none).status = "Keyword density too low" := by
  with_unfolding_all decide

/-- C3 (amended): the status is determined by the UNROUNDED density
variable count/totalWords*100 through the bands, while the reported
primaryKeywordDensity field is that value rounded to two decimals; the
two can disagree when rounding crosses a band boundary. -/
theorem c3_status_from_unrounded_density (content targetKeyword : String)
    (cachedWords : Option Nat)
    (hc : jsTrim content.data ≠ []) (hk : jsTrim targetKeyword.data ≠ []) :
    (analyzeKeywords content targetKeyword cachedWords).status =
      densityStatus (rawKeywordDensity content targetKeyword cachedWords) ∧
    (analyzeKeywords content targetKeyword cachedWords).primaryKeywordDensity =
      jsRound2 (rawKeywordDensity content targetKeyword cachedWords) := by
  have hc2 : ¬((jsTrim content.data).isEmpty = true) := by
    simpa [List.isEmpty_iff] using hc
  have hk2 : ¬((jsTrim targetKeyword.data).isEmpty = true) := by
    simpa [List.isEmpty_iff] using hk
  simp only [analyzeKeywords]
  rw [if_neg hc2, if_neg hk2]
  exact ⟨rfl, rfl⟩

/-- C3 witness: the amended statement applied at a concrete input. -/
theorem c3_status_witness :
    jsTrim "w x apple".data ≠ [] ∧ jsTrim "apple".data ≠ [] ∧
    (analyzeKeywords "w x apple" "apple" none).status =
      densityStatus (rawKeywordDensity "w x apple" "apple" none) :=
  ⟨by decide, by decide,
   (c3_status_from_unrounded_density "w x apple" "apple" none (by decide) (by decide)).1⟩

/-- C4 counterexample: on content consisting of the single line
hash-hash-Section the structure score is not 70. -/
theorem c4_missing_h1_cex :
    (analyzeHeadingStructure "## Section").structureScore ≠ 70 := by decide

/-- C4 (amended): that content scores 60, because besides the 30-point
missing-H1 deduction the level-2 heading also exceeds the initial
previous level 0 by more than 1 and costs a 10-point hierarchy
deduction; the issues list contains the missing-H1 entry (and the
hierarchy entry). -/
theorem c4_missing_h1_amended :
    (analyzeHeadingStructure "## Section").structureScore = 60 ∧
    "Missing H1 tag" ∈ (analyzeHeadingStructure "## Section").issues ∧
    (analyzeHeadingStructure "## Section").issues =
      ["Missing H1 tag", "Heading hierarchy issues detected"] := by decide

/-- C8 counterexample: with an inline markup H1 first in the source and
a markdown H2 after it, the headings list puts the markdown heading
first, violating document order, and the hierarchy scan on that
concatenated order reports a (spurious) violation, scoring 90. -/
theorem c8_heading_order_cex :
    (analyzeHeadingStructure c8Content).headings = [⟨2, "Section"⟩, ⟨1, "Title"⟩] ∧
    (analyzeHeadingStructure c8Content).structureScore = 90 := by decide

/-- C8 (amended): the headings list is all markdown-style headings in
source order followed by all inline markup headings in source order (the
concatenation of the two match lists, not a position-merged order), and
the hierarchy scan runs over this concatenated list. -/
theorem c8_headings_concat_amended (content : String) :
    (analyzeHeadingStructure content).headings =
      (mdHeadings content.data ++ htmlHeadings content.data).map
        (fun p => HeadingEntry.mk p.1 (((jsTrim p.2).take 100).asString)) ∧
    (analyzeHeadingStructure content).structureScore =
      max 0 ((100 : ℤ) - (if (analyzeHeadingStructure content).hasH1 then 0 else 30)
        - (if (analyzeHeadingStructure content).multipleH1 then 20 else 0)
        - 10 * (hierarchyIssuesOf ((mdHeadings content.data ++ htmlHeadings content.data).map
            (fun p => HeadingEntry.mk p.1 (((jsTrim p.2).take 100).asString))) : ℤ)) :=
  ⟨rfl, rfl⟩

/-- The content quality sub-score lies in [0, 100]. -/
theorem contentQuality_bounds (ws : WordStats) (ka : KeywordAnalysis) :
    0 ≤ calculateContentQualityScore ws ka ∧ calculateContentQualityScore ws ka ≤ 100 := by
  unfold calculateContentQualityScore
  refine ⟨le_min (by norm_num) ?_, min_le_left _ _⟩
  repeat
    first
    | apply add_nonneg
    | apply iteNonneg
    | norm_num

/-- The scaled analysis-depth fraction is nonnegative. -/
theorem depthFraction_nonneg (a b : ℕ) : (0 : ℚ) ≤ (a : ℚ) / (b : ℚ) * 30 := by positivity

/-- The technical SEO sub-score lies in [0, 100]. -/
theorem technicalSEO_bounds (hs : HeadingStructure) (ka : KeywordAnalysis)
    (tk md : String) :
    0 ≤ calculateTechnicalSEOScore hs ka tk md ∧
      calculateTechnicalSEOScore hs ka tk md ≤ 100 := by
  unfold calculateTechnicalSEOScore
  refine ⟨le_min (by norm_num) ?_, min_le_left _ _⟩
  refine add_nonneg (add_nonneg (add_nonneg (add_nonneg (add_nonneg le_rfl ?_) ?_) ?_) ?_) ?_
  · exact iteNonneg (add_nonneg (by norm_num) (iteNonneg (by norm_num) le_rfl)) le_rfl
  · exact iteNonneg le_rfl (by norm_num)
  · exact iteNonneg (by norm_num) (iteNonneg (by norm_num) le_rfl)
  · exact iteNonneg (add_nonneg (by norm_num) (iteNonneg (by norm_num) le_rfl))
      (iteNonneg (by norm_num) (iteNonneg (by norm_num) le_rfl))
  · exact jsRound_cast_nonneg (depthFraction_nonneg _ _)

/-- The readability sub-score lies in [0, 100]. -/
theorem readability_bounds (rs : ReadabilityScores) :
    0 ≤ calculateReadabilityScore rs ∧ calculateReadabilityScore rs ≤ 100 := by
  unfold calculateReadabilityScore
  refine ⟨le_min (by norm_num) ?_, min_le_left _ _⟩
  repeat
    first
    | apply add_nonneg
    | apply iteNonneg
    | norm_num

/-- The user experience sub-score lies in [0, 100]. -/
theorem userExperience_bounds (ws : WordStats) :
    0 ≤ calculateUserExperienceScore ws ∧ calculateUserExperienceScore ws ≤ 100 := by
  unfold calculateUserExperienceScore
  refine ⟨le_min (by norm_num) ?_, min_le_left _ _⟩
  repeat
    first
    | apply add_nonneg
    | apply iteNonneg
    | norm_num

/-- C2: for every collection of component outputs, each of the four
category sub-scores lies in [0, 100] (each is capped at 100 and is a sum
of nonnegative band points), the overall score is the 35/30/20/15
weighted sum of exactly those sub-scores, rounded and clamped to
[0, 100]. -/
theorem c2_seo_score_weighted_clamped (ws : WordStats) (rs : ReadabilityScores)
    (ka : KeywordAnalysis) (hs : HeadingStructure) (tk md : String) :
    (0 ≤ calculateContentQualityScore ws ka ∧ calculateContentQualityScore ws ka ≤ 100) ∧
    (0 ≤ calculateTechnicalSEOScore hs ka tk md ∧
      calculateTechnicalSEOScore hs ka tk md ≤ 100) ∧
    (0 ≤ calculateReadabilityScore rs ∧ calculateReadabilityScore rs ≤ 100) ∧
    (0 ≤ calculateUserExperienceScore ws ∧ calculateUserExperienceScore ws ≤ 100) ∧
    (calculateSEOScore ws rs ka hs tk md).overall =
      min 100 (max 0 (jsRound (calculateContentQualityScore ws ka * (35/100) +
        calculateTechnicalSEOScore hs ka tk md * (30/100) +
        calculateReadabilityScore rs * (20/100) +
        calculateUserExperienceScore ws * (15/100)))) ∧
    0 ≤ (calculateSEOScore ws rs ka hs tk md).overall ∧
    (calculateSEOScore ws rs ka hs tk md).overall ≤ 100 := by
  refine ⟨contentQuality_bounds ws ka, technicalSEO_bounds hs ka tk md,
    readability_bounds rs, userExperience_bounds ws, rfl, ?_, ?_⟩
  · exact le_min (by norm_num) (le_max_left _ _)
  · exact min_le_left _ _

/-- C9: for every non-empty word of lowercase letters the syllable count
is at least 1, and a word of at most three letters (measured before the
suffix stripping) counts exactly 1 syllable. -/
theorem c9_syllable_floor (w : List Char) (hne : w ≠ [])
    (hlow : ∀ c ∈ w, isLowerAlpha c = true) :
    1 ≤ countWordSyllables w ∧ (w.length ≤ 3 → countWordSyllables w = 1) := by
  have hfilter : w.filter isLowerAlpha = w := List.filter_eq_self.mpr hlow
  have hmap : lowerL w = w := by
    unfold lowerL
    conv_rhs => rw [← List.map_id w]
    exact List.map_congr_left (fun c hc => jsToLower_lower (hlow c hc))
  have hlen : w.length ≠ 0 := by
    intro h0
    exact hne (List.length_eq_zero.mp h0)
  simp only [countWordSyllables, hfilter, hmap]
  constructor
  · by_cases h3 : w.length ≤ 3
    · rw [if_neg hlen, if_pos h3]
    · rw [if_neg hlen, if_neg h3]
      exact le_max_left _ _
  · intro h3
    rw [if_neg hlen, if_pos h3]

/-- C9 witness: the floor and the short-word case at the word cat. -/
theorem c9_syllable_witness :
    1 ≤ countWordSyllables "cat".data ∧
      ("cat".data.length ≤ 3 → countWordSyllables "cat".data = 1) :=
  c9_syllable_floor "cat".data (by decide) (by decide)

/-- Character equality through code points. -/
theorem char_eq_iff_toNat {a b : Char} : a = b ↔ a.toNat = b.toNat :=
  ⟨fun h => by rw [h], fun h => Char.eq_of_val_eq (UInt32.ext h)⟩

/-- Unsigned comparison through code points. -/
theorem uint32_le_iff_toNat {a b : UInt32} : a ≤ b ↔ a.toNat ≤ b.toNat := Iff.rfl

/-- The code point of a character, two spellings. -/
theorem char_val_toNat (c : Char) : c.val.toNat = c.toNat := rfl

/-- A word character is never whitespace. -/
theorem word_not_ws {c : Char} (h : isWordChar c = true) : isJsSpace c = false := by
  rw [Bool.eq_false_iff]
  intro hws
  simp only [isWordChar, Bool.or_eq_true, Bool.and_eq_true, decide_eq_true_eq, Char.le_def,
    char_eq_iff_toNat] at h
  simp only [isJsSpace, Bool.or_eq_true, Bool.and_eq_true, decide_eq_true_eq, Char.le_def,
    char_eq_iff_toNat] at hws
  simp only [uint32_le_iff_toNat, char_val_toNat] at h hws
  simp at h hws
  omega

/-- A list prefix is no longer than the list. -/
theorem isPrefixL_length_le : ∀ {p l : List Char}, isPrefixL p l = true → p.length ≤ l.length
  | [], _, _ => Nat.zero_le _
  | _ :: _, [], h => by simp [isPrefixL] at h
  | p :: ps, c :: cs, h => by
    simp only [isPrefixL, Bool.and_eq_true] at h
    simpa using isPrefixL_length_le h.2

/-- A successful list-prefix test decomposes the list. -/
theorem isPrefixL_decomp : ∀ {p l : List Char}, isPrefixL p l = true → l = p ++ l.drop p.length
  | [], l, _ => rfl
  | _ :: _, [], h => by simp [isPrefixL] at h
  | p :: ps, c :: cs, h => by
    simp only [isPrefixL, Bool.and_eq_true, decide_eq_true_eq] at h
    have := isPrefixL_decomp h.2
    simp only [List.length_cons, List.drop_succ_cons, List.cons_append]
    rw [h.1, ← this]

/-- Every list is a prefix of itself. -/
theorem isPrefixL_refl : ∀ (l : List Char), isPrefixL l l = true
  | [] => rfl
  | c :: cs => by simp [isPrefixL, isPrefixL_refl cs]

/-- Every list includes itself as a substring. -/
theorem jsIncludes_refl (l : List Char) : jsIncludes l l = true := by
  cases l with
  | nil => rfl
  | cons c cs =>
    simp only [jsIncludes, Bool.or_eq_true]
    exact Or.inl (isPrefixL_refl _)

/-- A nonempty list has positive length, Bool isEmpty form. -/
theorem length_pos_of_not_isEmpty {l : List Char} (h : ¬(l.isEmpty = true)) : 0 < l.length := by
  cases l with
  | nil => exact absurd rfl h
  | cons c cs => simp

/-- A successful phrase-regex attempt consumes at least one and at most
all characters, and the remainder is the corresponding drop. -/
theorem matchKws_drop : ∀ {kws : List (List Char)} {l r : List Char},
    matchKws kws l = some r → ∃ k, 0 < k ∧ k ≤ l.length ∧ r = l.drop k
  | [], l, r, h => by simp [matchKws] at h
  | [kw], l, r, h => by
    simp only [matchKws] at h
    split_ifs at h with h1 h2
    have hkpos : 0 < kw.length := length_pos_of_not_isEmpty h1
    have hkle : kw.length ≤ l.length := isPrefixL_length_le h2
    rcases hd : l.drop kw.length with _ | ⟨c, rest⟩
    · simp only [hd] at h
      injection h with h3
      exact ⟨kw.length, hkpos, hkle, by rw [← h3, hd]⟩
    · simp only [hd] at h
      split_ifs at h with hw
      injection h with h3
      exact ⟨kw.length, hkpos, hkle, by rw [← h3, hd]⟩
  | kw :: kw2 :: kws, l, r, h => by
    simp only [matchKws] at h
    split_ifs at h with h1 h2 h3
    obtain ⟨k2, hk2pos, hk2le, hr⟩ := matchKws_drop h
    have hkpos : 0 < kw.length := length_pos_of_not_isEmpty h1
    have hkle : kw.length ≤ l.length := isPrefixL_length_le h2
    refine ⟨k2 + ((l.drop kw.length).takeWhile isJsSpace).length + kw.length, by omega, ?_, ?_⟩
    · have hwle : ((l.drop kw.length).takeWhile isJsSpace).length
          ≤ (l.drop kw.length).length := by
        calc ((l.drop kw.length).takeWhile isJsSpace).length
            ≤ ((l.drop kw.length).takeWhile isJsSpace).length
              + ((l.drop kw.length).dropWhile isJsSpace).length := Nat.le_add_right _ _
          _ = (l.drop kw.length).length := by
              rw [← List.length_append, List.takeWhile_append_dropWhile]
      simp only [List.length_drop] at hk2le hwle ⊢
      omega
    · rw [hr, List.drop_drop, List.drop_drop]
      congr 1
      omega

/-- Hence the remainder of a successful match is strictly shorter. -/
theorem matchKws_lt {kws : List (List Char)} {l r : List Char}
    (h : matchKws kws l = some r) : r.length < l.length := by
  obtain ⟨k, hk, hkle, hr⟩ := matchKws_drop h
  rw [hr]
  simp only [List.length_drop]
  omega

/-- Characters of the remainder come from the input. -/
theorem matchKws_subset {kws : List (List Char)} {l r : List Char}
    (h : matchKws kws l = some r) : ∀ c ∈ r, c ∈ l := by
  obtain ⟨k, -, -, hr⟩ := matchKws_drop h
  intro c hc
  rw [hr] at hc
  exact List.mem_of_mem_drop hc

/-- Unwinding the skip counter: skipping s characters lands at the
dropped suffix with the previous-is-word flag set. -/
theorem scanCount_skip (kws : List (List Char)) :
    ∀ (l : List Char) (s : Nat) (pw : Bool), 1 ≤ s →
      scanCount kws s pw l = scanCount kws 0 true (l.drop s)
  | [], s, pw, hs => by
    cases s with
    | zero => omega
    | succ s2 => simp [scanCount]
  | c :: rest, s, pw, hs => by
    cases s with
    | zero => omega
    | succ s2 =>
      rw [scanCount, List.drop_succ_cons]
      cases Nat.eq_zero_or_pos s2 with
      | inl h0 => subst h0; simp
      | inr hpos => exact scanCount_skip kws rest s2 true hpos

/-- The accumulator of skGo only prefixes the first emitted segment. -/
theorem skGo_acc (p : Char → Bool) :
    ∀ (cs : List Char) (acc : List Char),
      skGo p cs acc = (acc.reverse ++ (skGo p cs []).headD []) :: (skGo p cs []).tail
  | [], acc => by simp [skGo]
  | c :: rest, acc => by
    by_cases hp : p c
    · simp [skGo, hp]
    · rw [skGo, if_neg (by simp [hp]), skGo_acc p rest (c :: acc)]
      conv_rhs => rw [skGo, if_neg (by simp [hp]), skGo_acc p rest [c]]
      simp

/-- skSkip is skGo after discarding the separator run. -/
theorem skSkip_eq (p : Char → Bool) :
    ∀ (cs : List Char), skSkip p cs = skGo p (cs.dropWhile p) []
  | [] => by simp [skSkip, skGo]
  | c :: rest => by
    by_cases hp : p c
    · rw [skSkip, if_pos hp, skSkip_eq p rest, List.dropWhile_cons_of_pos hp]
    · rw [skSkip, if_neg hp, List.dropWhile_cons_of_neg hp, skGo, if_neg (by simp [hp])]

/-- The first element surviving dropWhile falsifies the predicate. -/
theorem dropWhile_head_false (p : Char → Bool) :
    ∀ {l : List Char} {c2 : Char} {r2 : List Char},
      l.dropWhile p = c2 :: r2 → p c2 = false
  | [], c2, r2, h => by simp [List.dropWhile] at h
  | c :: rest, c2, r2, h => by
    by_cases hp : p c
    · rw [List.dropWhile_cons_of_pos hp] at h
      exact dropWhile_head_false p h
    · rw [List.dropWhile_cons_of_neg hp] at h
      injection h with h1 h2
      subst h1
      simpa using hp

/-- Filtering empties, skGo from scratch and skSkip agree. -/
theorem filter_skGo_eq_skSkip (p : Char → Bool) (cs : List Char) :
    (skGo p cs []).filter (fun w => decide (0 < w.length)) =
      (skSkip p cs).filter (fun w => decide (0 < w.length)) := by
  cases cs with
  | nil => simp [skGo, skSkip]
  | cons c rest =>
    by_cases hp : p c
    · rw [skGo, if_pos hp, skSkip, if_pos hp]
      simp
    · rw [skGo, if_neg (by simp [hp]), skSkip, if_neg hp]

/-- A leading whitespace character does not change the filtered token
list. -/
theorem splitWs_ws_cons {c : Char} (rest : List Char) (hp : isJsSpace c = true) :
    splitWs (c :: rest) = splitWs rest := by
  unfold splitWs splitWsKeep
  rw [skGo, if_pos hp]
  rw [show (List.filter (fun w => decide (0 < w.length))
      (([] : List Char).reverse :: skSkip isJsSpace rest)) =
    List.filter (fun w => decide (0 < w.length)) (skSkip isJsSpace rest) by simp]
  exact (filter_skGo_eq_skSkip isJsSpace rest).symm

/-- skGo walks through a separator-free block, accumulating it. -/
theorem skGo_append_tok (p : Char → Bool) :
    ∀ (w : List Char) (acc rest : List Char), (∀ c ∈ w, p c = false) →
      skGo p (w ++ rest) acc = skGo p rest (w.reverse ++ acc)
  | [], acc, rest, _ => by simp
  | c :: w2, acc, rest, hw => by
    have hc : p c = false := hw c (by simp)
    rw [List.cons_append, skGo, if_neg (by simp [hc]),
      skGo_append_tok p w2 (c :: acc) rest (fun d hd => hw d (by simp [hd]))]
    simp

/-- Dropping all whitespace of a leading whitespace block keeps the
token list. -/
theorem splitWs_ws_block :
    ∀ (ws2 rest : List Char), (∀ c ∈ ws2, isJsSpace c = true) →
      splitWs (ws2 ++ rest) = splitWs rest
  | [], rest, _ => rfl
  | c :: w2, rest, hw => by
    rw [List.cons_append, splitWs_ws_cons _ (hw c (by simp)),
      splitWs_ws_block w2 rest (fun d hd => hw d (by simp [hd]))]

/-- Token-peeling: a nonempty separator-free block followed by nothing
or by whitespace is the first token of the split. -/
theorem splitWs_tok (w r : List Char) (hwne : w ≠ [])
    (hw : ∀ c ∈ w, isJsSpace c = false)
    (hr : r = [] ∨ ∃ c2 r2, r = c2 :: r2 ∧ isJsSpace c2 = true) :
    splitWs (w ++ r) = w :: splitWs r := by
  unfold splitWs splitWsKeep
  rw [skGo_append_tok isJsSpace w [] r hw]
  rcases hr with hr | ⟨c2, r2, hr, hc2⟩
  · subst hr
    rw [skGo]
    have hpos : 0 < w.length := List.length_pos.mpr hwne
    simp [List.filter, hpos]
  · subst hr
    rw [skGo, if_pos hc2]
    rw [show (w.reverse ++ ([] : List Char)).reverse = w by simp]
    rw [List.filter_cons_of_pos (by simp [List.length_pos, hwne])]
    congr 1
    rw [skGo, if_pos hc2]
    simp

/-- Peeling the leading token off a split that starts with a
non-whitespace character. -/
theorem splitWs_cons_head {c : Char} (rest : List Char) (hc : isJsSpace c = false) :
    splitWs (c :: rest) =
      (c :: rest.takeWhile (fun x => !(isJsSpace x))) ::
        splitWs (rest.dropWhile (fun x => !(isJsSpace x))) := by
  have hdec : c :: rest = (c :: rest.takeWhile (fun x => !(isJsSpace x))) ++
      rest.dropWhile (fun x => !(isJsSpace x)) := by
    rw [List.cons_append]
    congr 1
    exact (List.takeWhile_append_dropWhile _ _).symm
  rw [hdec]
  apply splitWs_tok
  · simp
  · intro d hd
    rcases List.mem_cons.mp hd with hd | hd
    · subst hd; exact hc
    · have := List.mem_takeWhile_imp hd
      simpa using this
  · cases hdw : rest.dropWhile (fun x => !(isJsSpace x)) with
    | nil => exact Or.inl rfl
    | cons c2 r2 =>
      refine Or.inr ⟨c2, r2, rfl, ?_⟩
      have := dropWhile_head_false (fun x => !(isJsSpace x)) hdw
      simpa using this

/-- dropWhile respects pointwise equal predicates on the list. -/
theorem dropWhile_congr_chars {p q : Char → Bool} :
    ∀ {l : List Char}, (∀ c ∈ l, p c = q c) → l.dropWhile p = l.dropWhile q
  | [], _ => rfl
  | c :: rest, h => by
    have hc := h c (by simp)
    by_cases hp : p c
    · rw [List.dropWhile_cons_of_pos hp, List.dropWhile_cons_of_pos (by rw [← hc]; exact hp),
        dropWhile_congr_chars (fun d hd => h d (by simp [hd]))]
    · rw [List.dropWhile_cons_of_neg hp,
        List.dropWhile_cons_of_neg (by rw [← hc]; exact hp)]

/-- Under the word-or-whitespace alphabet, dropping word characters and
dropping non-whitespace agree. -/
theorem dropWhile_word_eq_nonws {l : List Char}
    (hok : ∀ c ∈ l, isWordChar c = true ∨ isJsSpace c = true) :
    l.dropWhile isWordChar = l.dropWhile (fun x => !(isJsSpace x)) := by
  apply dropWhile_congr_chars
  intro c hc
  rcases hok c hc with h | h
  · rw [h, word_not_ws h]
    rfl
  · rw [h]
    cases hw : isWordChar c with
    | false => rfl
    | true => rw [word_not_ws hw] at h; cases h

/-- No window fits in a list shorter than the window size. -/
theorem slidingWindows_short {α : Type} {n : Nat} (hn : 1 ≤ n) :
    ∀ (L : List α), L.length < n → slidingWindows n L = []
  | [], _ => by
    rw [slidingWindows, if_neg]
    omega
  | x :: L, h => by
    rw [slidingWindows, if_pos h]

/-- Prepending one element can only add windows. -/
theorem countP_windows_cons {α : Type} (q : List α → Bool) {n : Nat} (hn : 1 ≤ n)
    (x : α) (L : List α) :
    List.countP q (slidingWindows n L) ≤ List.countP q (slidingWindows n (x :: L)) := by
  by_cases h : (x :: L).length < n
  · rw [slidingWindows_short hn _ (by simp at h ⊢; omega),
      slidingWindows_short hn _ h]
  · rw [slidingWindows, if_neg h, List.countP_cons]
    omega

/-- Appending a suffix can only add windows. -/
theorem countP_windows_append {α : Type} (q : List α → Bool) {n : Nat} (hn : 1 ≤ n) :
    ∀ (L B : List α),
      List.countP q (slidingWindows n L) ≤ List.countP q (slidingWindows n (L ++ B))
  | [], B => by
    rw [slidingWindows, if_neg (by omega)]
    exact Nat.zero_le _
  | x :: L, B => by
    by_cases h : (x :: L).length < n
    · rw [slidingWindows_short hn _ h]
      exact Nat.zero_le _
    · have hlen : ¬((x :: (L ++ B)).length < n) := by
        simp only [List.length_cons, List.length_append] at h ⊢
        omega
      rw [List.cons_append, slidingWindows, if_neg h, slidingWindows, if_neg hlen,
        ← List.cons_append]
      have htake : ((x :: L) ++ B).take n = (x :: L).take n :=
        List.take_append_of_le_length (by simpa using Nat.le_of_not_lt h)
      rw [htake, List.countP_cons, List.countP_cons]
      have := countP_windows_append q hn L B
      omega

/-- Prepending any list can only add windows. -/
theorem countP_windows_after {α : Type} (q : List α → Bool) {n : Nat} (hn : 1 ≤ n) :
    ∀ (A L : List α),
      List.countP q (slidingWindows n L) ≤ List.countP q (slidingWindows n (A ++ L))
  | [], _ => le_rfl
  | x :: A, L =>
    le_trans (countP_windows_after q hn A L) (countP_windows_cons q hn x (A ++ L))

/-- The first window of a list starting with a full-size block is that
block. -/
theorem slidingWindows_head_eq {α : Type} {n : Nat} (hn : 1 ≤ n) (L T : List α)
    (h : L.length = n) :
    slidingWindows n (L ++ T) = L :: slidingWindows n (L.tail ++ T) := by
  cases L with
  | nil => simp at h; omega
  | cons x L2 =>
    have hlen : ¬((x :: (L2 ++ T)).length < n) := by
      simp only [List.length_cons, List.length_append]
      simp only [List.length_cons] at h
      omega
    rw [List.cons_append, slidingWindows, if_neg hlen, ← List.cons_append]
    congr 1
    rw [List.take_append_of_le_length (le_of_eq h.symm),
      List.take_of_length_le (le_of_eq h)]

/-- dropWhile is drop of the takeWhile length. -/
theorem dropWhile_eq_drop_takeWhile (p : Char → Bool) :
    ∀ (l : List Char), l.dropWhile p = l.drop (l.takeWhile p).length
  | [] => rfl
  | c :: rest => by
    by_cases hp : p c
    · rw [List.dropWhile_cons_of_pos hp, List.takeWhile_cons_of_pos hp]
      simpa using dropWhile_eq_drop_takeWhile p rest
    · rw [List.dropWhile_cons_of_neg hp, List.takeWhile_cons_of_neg hp]
      rfl

/-- Characters of takeWhile satisfy the predicate. -/
theorem mem_takeWhile_pred (p : Char → Bool) {l : List Char} {c : Char}
    (h : c ∈ l.takeWhile p) : p c = true := by
  have := List.mem_takeWhile_imp h
  exact this

/-- Token structure of a successful phrase match: the tokens of the
input are exactly the keyword words followed by the tokens of the
remainder, and the remainder starts at a word boundary. -/
theorem matchKws_tokens : ∀ {kws : List (List Char)} {l r : List Char},
    (∀ k ∈ kws, k ≠ [] ∧ ∀ c ∈ k, isWordChar c = true) →
    (∀ c ∈ l, isWordChar c = true ∨ isJsSpace c = true) →
    matchKws kws l = some r →
    splitWs l = kws ++ splitWs r ∧ (r = [] ∨ ∃ c2 r2, r = c2 :: r2 ∧ isWordChar c2 = false)
  | [], l, r, _, _, h => by simp [matchKws] at h
  | [kw], l, r, hk, hok, h => by
    simp only [matchKws] at h
    split_ifs at h with h1 h2
    have hkw := hk kw (by simp)
    have hdec := isPrefixL_decomp h2
    rcases hd : l.drop kw.length with _ | ⟨c, rest2⟩
    · simp only [hd] at h
      injection h with h3
      subst h3
      constructor
      · rw [hdec, hd, splitWs_tok kw [] hkw.1
          (fun c hc => word_not_ws (hkw.2 c hc)) (Or.inl rfl)]
        rfl
      · exact Or.inl rfl
    · simp only [hd] at h
      split_ifs at h with hw
      injection h with h3
      subst h3
      constructor
      · rw [hdec, hd, splitWs_tok kw (c :: rest2) hkw.1
          (fun d hdm => word_not_ws (hkw.2 d hdm)) ?hr]
        · rfl
        case hr =>
          refine Or.inr ⟨c, rest2, rfl, ?_⟩
          have hcmem : c ∈ l := by
            have : c ∈ l.drop kw.length := by rw [hd]; simp
            exact List.mem_of_mem_drop this
          rcases hok c hcmem with hcw | hcw
          · rw [hcw] at hw; cases hw rfl
          · exact hcw
      · refine Or.inr ⟨c, rest2, rfl, ?_⟩
        cases hw2 : isWordChar c with
        | false => rfl
        | true => rw [hw2] at hw; cases hw rfl
  | kw :: kw2 :: kws, l, r, hk, hok, h => by
    simp only [matchKws] at h
    split_ifs at h with h1 h2 h3
    have hkw := hk kw (by simp)
    have hdec := isPrefixL_decomp h2
    set X := l.drop kw.length with hX
    set W := X.takeWhile isJsSpace with hW
    have hXdec : X = W ++ X.drop W.length := by
      conv_lhs => rw [← List.takeWhile_append_dropWhile isJsSpace X]
      rw [dropWhile_eq_drop_takeWhile]
    have hWws : ∀ c ∈ W, isJsSpace c = true := fun c hc => mem_takeWhile_pred _ hc
    have hih := matchKws_tokens (fun k hkm => hk k (by simp [hkm]))
      (fun c hc => hok c (List.mem_of_mem_drop (List.mem_of_mem_drop hc))) h
    constructor
    · rw [hdec, hXdec]
      rw [splitWs_tok kw (W ++ X.drop W.length) hkw.1
        (fun d hdm => word_not_ws (hkw.2 d hdm)) ?hr2]
      · rw [splitWs_ws_block W _ hWws, hih.1]
        rfl
      case hr2 =>
        rcases hWne : W with _ | ⟨cW, W2⟩
        · rw [hWne] at h3
          simp at h3
        · exact Or.inr ⟨cW, W2 ++ X.drop (cW :: W2).length,
            by simp, hWws cW (by rw [hWne]; simp)⟩
    · exact hih.2

/-- Main counting invariant of the phrase scan: from any position (with
the given previous-character-is-word flag), the number of regex matches
found in the rest of the text is at most the number of token windows
equal to the keyword word list, taken over the tokens of the rest (minus
a leading partial token when the flag is set). -/
theorem scanCount_le_eq_windows (kws : List (List Char))
    (hk : ∀ k ∈ kws, k ≠ [] ∧ ∀ c ∈ k, isWordChar c = true) (hn : 1 ≤ kws.length) :
    ∀ (N : Nat) (l : List Char), l.length ≤ N →
      (∀ c ∈ l, isWordChar c = true ∨ isJsSpace c = true) → ∀ pw : Bool,
      scanCount kws 0 pw l ≤
        List.countP (fun s => decide (s = kws))
          (slidingWindows kws.length (splitWs (if pw then l.dropWhile isWordChar else l))) := by
  intro N
  induction N with
  | zero =>
    intro l hl hok pw
    have h0 : l = [] := List.length_eq_zero.mp (Nat.le_zero.mp hl)
    subst h0
    simp [scanCount]
  | succ N ih =>
    intro l hl hok pw
    cases l with
    | nil => simp [scanCount]
    | cons c rest =>
      have hrest : rest.length ≤ N := by
        simp only [List.length_cons] at hl
        omega
      have hokr : ∀ x ∈ rest, isWordChar x = true ∨ isJsSpace x = true :=
        fun x hx => hok x (by simp [hx])
      cases pw with
      | true =>
        rw [scanCount, if_pos rfl]
        rw [show (if (true : Bool) then (c :: rest).dropWhile isWordChar else c :: rest)
            = (c :: rest).dropWhile isWordChar from if_pos rfl]
        by_cases hcw : isWordChar c = true
        · rw [hcw, List.dropWhile_cons_of_pos hcw]
          have h1 := ih rest hrest hokr true
          rwa [show (if (true : Bool) then rest.dropWhile isWordChar else rest)
              = rest.dropWhile isWordChar from if_pos rfl] at h1
        · have hcs : isJsSpace c = true := (hok c (by simp)).resolve_left hcw
          rw [Bool.eq_false_iff.mpr hcw,
            List.dropWhile_cons_of_neg (by simp [Bool.eq_false_iff.mpr hcw]),
            splitWs_ws_cons rest hcs]
          have h1 := ih rest hrest hokr false
          rwa [show (if (false : Bool) then rest.dropWhile isWordChar else rest)
              = rest from if_neg (by simp)] at h1
      | false =>
        rw [show (if (false : Bool) then (c :: rest).dropWhile isWordChar else c :: rest)
            = c :: rest from if_neg (by simp)]
        rcases hm : matchKws kws (c :: rest) with _ | r
        · rw [scanCount, if_neg (by simp : ¬(false = true))]
          simp only [hm]
          by_cases hcw : isWordChar c = true
          · have hcs : isJsSpace c = false := word_not_ws hcw
            have hstep := splitWs_cons_head rest hcs
            have hdw : rest.dropWhile isWordChar
                = rest.dropWhile (fun x => !(isJsSpace x)) := dropWhile_word_eq_nonws hokr
            have h1 := ih rest hrest hokr true
            rw [show (if (true : Bool) then rest.dropWhile isWordChar else rest)
                = rest.dropWhile isWordChar from if_pos rfl] at h1
            rw [hcw]
            calc scanCount kws 0 true rest
                ≤ List.countP (fun s => decide (s = kws))
                  (slidingWindows kws.length (splitWs (rest.dropWhile isWordChar))) := h1
              _ = List.countP (fun s => decide (s = kws))
                  (slidingWindows kws.length
                    (splitWs (rest.dropWhile (fun x => !(isJsSpace x))))) := by rw [hdw]
              _ ≤ List.countP (fun s => decide (s = kws))
                  (slidingWindows kws.length (splitWs (c :: rest))) := by
                    rw [hstep]
                    exact countP_windows_cons _ hn _ _
          · have hcs : isJsSpace c = true := (hok c (by simp)).resolve_left hcw
            rw [Bool.eq_false_iff.mpr hcw, splitWs_ws_cons rest hcs]
            have h1 := ih rest hrest hokr false
            rwa [show (if (false : Bool) then rest.dropWhile isWordChar else rest)
                = rest from if_neg (by simp)] at h1
        · rw [scanCount, if_neg (by simp : ¬(false = true))]
          simp only [hm]
          obtain ⟨k, hkpos, hkle, hr⟩ := matchKws_drop hm
          have hrlen : r.length = (c :: rest).length - k := by
            rw [hr]
            simp [List.length_drop]
          have hskip : scanCount kws ((c :: rest).length - r.length - 1) true rest
              = scanCount kws 0 true r := by
            have hconsumed : (c :: rest).length - r.length - 1 = k - 1 := by
              simp only [List.length_cons] at hrlen hkle ⊢
              omega
            rw [hconsumed]
            rcases Nat.lt_or_ge 1 k with hk2 | hk2
            · rw [scanCount_skip kws rest (k - 1) true (by omega)]
              congr 1
              rw [hr]
              cases k with
              | zero => omega
              | succ k2 => simp [List.drop_succ_cons]
            · have hk1 : k = 1 := by omega
              subst hk1
              simp only [Nat.sub_self]
              rw [hr]
              rfl
          rw [hskip]
          have hM := matchKws_tokens hk hok hm
          have hokr2 : ∀ x ∈ r, isWordChar x = true ∨ isJsSpace x = true :=
            fun x hx => hok x (matchKws_subset hm x hx)
          have hrN : r.length ≤ N := by
            have := matchKws_lt hm
            simp only [List.length_cons] at this hl
            omega
          have hih := ih r hrN hokr2 true
          rw [show (if (true : Bool) then r.dropWhile isWordChar else r)
              = r.dropWhile isWordChar from if_pos rfl] at hih
          have hrdw : r.dropWhile isWordChar = r := by
            rcases hM.2 with h0 | ⟨c2, r2, hre, hcw2⟩
            · rw [h0]
              rfl
            · rw [hre, List.dropWhile_cons_of_neg (by simp [hcw2])]
          rw [hrdw] at hih
          rw [hM.1, slidingWindows_head_eq hn kws (splitWs r) rfl, List.countP_cons]
          have hself : (decide (kws = kws) : Bool) = true := by simp
          rw [hself, if_pos rfl]
          have hpre := countP_windows_after (fun s => decide (s = kws)) hn
            kws.tail (splitWs r)
          omega

/-- Every character of the normalized text is a word character or
whitespace (all other characters were replaced by spaces). -/
theorem normalizeText_ok (content : String) :
    ∀ c ∈ normalizeText content, isWordChar c = true ∨ isJsSpace c = true := by
  intro c hc
  unfold normalizeText at hc
  obtain ⟨x, -, rfl⟩ := List.mem_map.mp hc
  by_cases hx : (isWordChar x || isJsSpace x) = true
  · rw [if_pos hx]
    simpa using hx
  · rw [if_neg hx]
    right
    decide

/-- Keyword words are nonempty (the split filters empty segments). -/
theorem keywordWordsOf_ne_nil (targetKeyword : String) :
    ∀ k ∈ keywordWordsOf targetKeyword, k ≠ [] := by
  intro k hk
  unfold keywordWordsOf splitWs at hk
  have := List.of_mem_filter hk
  simp only [decide_eq_true_eq] at this
  exact List.ne_nil_of_length_pos this

/-- Dropping the leading whitespace does not change the token list. -/
theorem splitWs_dropWhile_ws : ∀ (cs : List Char),
    splitWs (cs.dropWhile isJsSpace) = splitWs cs
  | [] => rfl
  | c :: rest => by
    by_cases hp : isJsSpace c
    · rw [List.dropWhile_cons_of_pos hp, splitWs_dropWhile_ws rest, splitWs_ws_cons rest hp]
    · rw [List.dropWhile_cons_of_neg hp]

/-- dropWhile never lengthens a list. -/
theorem length_dropWhile_le (p : Char → Bool) (l : List Char) :
    (l.dropWhile p).length ≤ l.length := by
  rw [dropWhile_eq_drop_takeWhile]
  simp [List.length_drop]

/-- The unfiltered split is the token list with possibly one empty
segment on each side; moreover no left padding appears when the text is
empty or starts with a non-whitespace character. -/
theorem splitWsKeep_decomp : ∀ (N : Nat) (cs : List Char), cs.length ≤ N →
    ∃ a b : List (List Char), splitWsKeep cs = a ++ splitWs cs ++ b ∧
      ((cs = [] ∨ ∃ c2 r2, cs = c2 :: r2 ∧ isJsSpace c2 = false) → a = []) := by
  intro N
  induction N with
  | zero =>
    intro cs hl
    have h0 : cs = [] := List.length_eq_zero.mp (Nat.le_zero.mp hl)
    subst h0
    exact ⟨[], [[]], rfl, fun _ => rfl⟩
  | succ N ih =>
    intro cs hl
    cases cs with
    | nil => exact ⟨[], [[]], rfl, fun _ => rfl⟩
    | cons c rest =>
      have hrest : rest.length ≤ N := by
        simp only [List.length_cons] at hl
        omega
      by_cases hp : isJsSpace c
      · have hkeep : splitWsKeep (c :: rest) = [] :: splitWsKeep (rest.dropWhile isJsSpace) := by
          unfold splitWsKeep
          rw [skGo, if_pos hp, skSkip_eq]
          rfl
        obtain ⟨a2, b2, hd2, hrefine⟩ := ih (rest.dropWhile isJsSpace)
          (le_trans (length_dropWhile_le _ _) hrest)
        have ha2 : a2 = [] := by
          apply hrefine
          cases hdw : rest.dropWhile isJsSpace with
          | nil => exact Or.inl rfl
          | cons c2 r2 => exact Or.inr ⟨c2, r2, rfl, dropWhile_head_false _ hdw⟩
        refine ⟨[[]], b2, ?_, ?_⟩
        · rw [hkeep, hd2, ha2, splitWs_ws_cons rest hp, ← splitWs_dropWhile_ws rest]
          rfl
        · rintro (h0 | ⟨c2, r2, heq, hc2⟩)
          · cases h0
          · injection heq with heq1 heq2
            subst heq1
            rw [hp] at hc2
            cases hc2
      · have hw : ∀ d ∈ c :: rest.takeWhile (fun x => !(isJsSpace x)), isJsSpace d = false := by
          intro d hd
          rcases List.mem_cons.mp hd with hd | hd
          · subst hd
            exact Bool.eq_false_iff.mpr hp
          · have := mem_takeWhile_pred _ hd
            simpa using this
        have hdec : c :: rest = (c :: rest.takeWhile (fun x => !(isJsSpace x))) ++
            rest.dropWhile (fun x => !(isJsSpace x)) := by
          rw [List.cons_append]
          congr 1
          exact (List.takeWhile_append_dropWhile _ _).symm
        have hkeep1 : splitWsKeep (c :: rest) =
            skGo isJsSpace (rest.dropWhile (fun x => !(isJsSpace x)))
              (c :: rest.takeWhile (fun x => !(isJsSpace x))).reverse := by
          unfold splitWsKeep
          conv_lhs => rw [hdec]
          rw [skGo_append_tok isJsSpace _ [] _ hw]
          rw [List.append_nil]
        have hsplit := splitWs_cons_head rest (Bool.eq_false_iff.mpr hp)
        cases hdw : rest.dropWhile (fun x => !(isJsSpace x)) with
        | nil =>
          refine ⟨[], [], ?_, fun _ => rfl⟩
          rw [hkeep1, hdw, skGo, hsplit, hdw]
          simp
          rfl
        | cons c2 r2 =>
          have hc2 : isJsSpace c2 = true := by
            have := dropWhile_head_false (fun x => !(isJsSpace x)) hdw
            simpa using this
          have hlen : (r2.dropWhile isJsSpace).length ≤ N := by
            have h1 : (rest.dropWhile (fun x => !(isJsSpace x))).length ≤ rest.length :=
              length_dropWhile_le _ _
            rw [hdw] at h1
            simp only [List.length_cons] at h1
            have h2 := length_dropWhile_le isJsSpace r2
            omega
          obtain ⟨a2, b2, hd2, hrefine⟩ := ih (r2.dropWhile isJsSpace) hlen
          have ha2 : a2 = [] := by
            apply hrefine
            cases hdw2 : r2.dropWhile isJsSpace with
            | nil => exact Or.inl rfl
            | cons c3 r3 => exact Or.inr ⟨c3, r3, rfl, dropWhile_head_false _ hdw2⟩
          refine ⟨[], b2, ?_, fun _ => rfl⟩
          rw [hkeep1, hdw, skGo, if_pos hc2, skSkip_eq]
          rw [hsplit, hdw, splitWs_ws_cons r2 hc2, ← splitWs_dropWhile_ws r2]
          have hgo : skGo isJsSpace (r2.dropWhile isJsSpace) []
              = splitWs (r2.dropWhile isJsSpace) ++ b2 := by
            have h3 := hd2
            rw [ha2] at h3
            simpa [splitWsKeep] using h3
          rw [List.reverse_reverse, hgo]
          simp

/-- A window equal to the keyword word list passes the 70% test: every
word includes itself, and ceil(0.7 n) never exceeds n. -/
theorem windowPass_self (kws : List (List Char)) : windowPass kws kws = true := by
  unfold windowPass
  have hcount : kws.countP (windowMatchBool kws) = kws.length := by
    apply List.countP_eq_length.mpr
    intro w hw
    unfold windowMatchBool
    apply List.any_eq_true.mpr
    refine ⟨w, hw, ?_⟩
    rw [jsIncludes_refl]
    rfl
  rw [hcount]
  simp only [decide_eq_true_eq]
  unfold ceil07
  omega

/-- countP is monotone in the predicate. -/
theorem countP_mono_of_imp {α : Type} (p q : α → Bool) :
    ∀ (l : List α), (∀ a ∈ l, p a = true → q a = true) →
      l.countP p ≤ l.countP q
  | [], _ => le_rfl
  | x :: l, h => by
    rw [List.countP_cons, List.countP_cons]
    have hrec := countP_mono_of_imp p q l (fun a ha => h a (List.mem_cons_of_mem x ha))
    by_cases hx : p x = true
    · rw [hx, h x (List.mem_cons_self x l) hx]
      omega
    · rw [Bool.eq_false_iff.mpr hx]
      simp only [if_neg, Bool.false_eq_true, if_false]
      split <;> omega


/-- A word character is not the '.' wildcard, so its atom test is plain
character equality. -/
theorem atomMatch_word {a : Char} (ha : isWordChar a = true) (x : Char) :
    atomMatch a x = decide (x = a) := by
  unfold atomMatch
  rw [if_neg]
  intro h
  subst h
  exact absurd ha (by decide)

/-- The previous-character argument of matchAtoms is irrelevant for a
nonempty pattern word. -/
theorem matchAtoms_prev (a : Char) (w : List Char) (p q : Option Char) (l : List Char) :
    matchAtoms (a :: w) p l = matchAtoms (a :: w) q l := by
  cases l <;> rfl

/-- On a word-character keyword word the atom matcher is the literal
prefix test: success returns the word's last character (a word
character) and drops the word's length, failure is exactly a failed
prefix test. -/
theorem matchAtoms_lit : ∀ (w : List Char), (∀ c ∈ w, isWordChar c = true) → w ≠ [] →
    ∀ (p : Option Char) (l : List Char),
      (isPrefixL w l = true → ∃ ch, isWordChar ch = true ∧
        matchAtoms w p l = some (some ch, l.drop w.length)) ∧
      (isPrefixL w l = false → matchAtoms w p l = none)
  | [], _, hne, _, _ => absurd rfl hne
  | a :: w, hw, _, p, l => by
    have ha : isWordChar a = true := hw a (by simp)
    cases l with
    | nil =>
      refine ⟨fun h => ?_, fun _ => rfl⟩
      rw [isPrefixL] at h
      cases h
    | cons x r =>
      by_cases hax : x = a
      · subst hax
        have hpre : isPrefixL (x :: w) (x :: r) = isPrefixL w r := by
          simp [isPrefixL]
        have hAt : matchAtoms (x :: w) p (x :: r) = matchAtoms w (some x) r := by
          rw [matchAtoms, atomMatch_word ha, if_pos (by simp)]
        cases w with
        | nil =>
          refine ⟨fun _ => ⟨x, ha, by rw [hAt]; rfl⟩, fun h => ?_⟩
          rw [hpre] at h
          cases h
        | cons b w2 =>
          have IH := matchAtoms_lit (b :: w2) (fun c hc => hw c (List.mem_cons_of_mem x hc))
            (by simp) (some x) r
          constructor
          · intro h
            rw [hpre] at h
            obtain ⟨ch, hch, heq⟩ := IH.1 h
            exact ⟨ch, hch, by rw [hAt, heq]; rfl⟩
          · intro h
            rw [hpre] at h
            rw [hAt]
            exact IH.2 h
      · constructor
        · intro h
          rw [isPrefixL] at h
          simp only [Bool.and_eq_true, decide_eq_true_eq] at h
          exact absurd h.1.symm hax
        · intro _
          rw [matchAtoms, atomMatch_word ha, if_neg (by simpa using hax)]

/-- A word-character word is no prefix of text beginning with whitespace
or of a text whose first character is not a word character. -/
theorem isPrefixL_false_of_head {w : List Char} (hw : ∀ c ∈ w, isWordChar c = true)
    (hne : w ≠ []) {l : List Char} (hl : wordOpt l.head? = false) :
    isPrefixL w l = false := by
  cases w with
  | nil => exact absurd rfl hne
  | cons a w2 =>
    cases l with
    | nil => rfl
    | cons x r =>
      have ha : isWordChar a = true := hw a (by simp)
      have hx : isWordChar x = false := by simpa [wordOpt] using hl
      rw [isPrefixL]
      simp only [Bool.and_eq_false_iff, decide_eq_false_iff_not]
      left
      intro h
      rw [h, hx] at ha
      cases ha

/-- matchAtoms of a word-character word fails when the text does not
start with a word character. -/
theorem matchAtoms_head_notword {w : List Char} (hw : ∀ c ∈ w, isWordChar c = true)
    (hne : w ≠ []) {l : List Char} (hl : wordOpt l.head? = false) (p : Option Char) :
    matchAtoms w p l = none :=
  (matchAtoms_lit w hw hne p l).2 (isPrefixL_false_of_head hw hne hl)

/-- firstSome of an everywhere-failing attempt fails. -/
theorem firstSome_none {α : Type} (f : Nat → Option α) :
    ∀ n, (∀ k, 1 ≤ k → k ≤ n → f k = none) → firstSome f n = none
  | 0, _ => rfl
  | n + 1, h => by
    rw [firstSome]
    rw [h (n + 1) (by omega) le_rfl]
    exact firstSome_none f n (fun k h1 h2 => h k h1 (by omega))

/-- When every attempt below the top fails, firstSome is the top
attempt. -/
theorem firstSome_top {α : Type} (f : Nat → Option α) (n : Nat) (hn : 1 ≤ n)
    (h : ∀ k, 1 ≤ k → k < n → f k = none) : firstSome f n = f n := by
  cases n with
  | zero => omega
  | succ m =>
    rw [firstSome]
    cases hf : f (m + 1) with
    | some r => rfl
    | none =>
      rw [firstSome_none f m (fun k h1 h2 => h k h1 (by omega))]

/-- A position inside the leading whitespace run holds a whitespace
character. -/
theorem get_takeWhile_ws : ∀ (l : List Char) (k : Nat),
    k < (l.takeWhile isJsSpace).length →
    ∃ c, l.get? k = some c ∧ isJsSpace c = true
  | [], k, h => by simp at h
  | x :: r, k, h => by
    rw [List.takeWhile_cons] at h
    by_cases hx : isJsSpace x = true
    · rw [if_pos hx] at h
      cases k with
      | zero => exact ⟨x, rfl, hx⟩
      | succ k2 =>
        simp only [List.length_cons, Nat.succ_lt_succ_iff] at h
        obtain ⟨c, hc, hcs⟩ := get_takeWhile_ws r k2 h
        exact ⟨c, hc, hcs⟩
    · rw [if_neg hx] at h
      cases h

/-- Splitting off the element at a valid index. -/
theorem drop_cons_of_get (l : List Char) (n : Nat) (c : Char) (hc : l.get? n = some c) :
    l.drop n = c :: l.drop (n + 1) := by
  have h : n < l.length := (List.get?_eq_some.mp hc).1
  rw [List.drop_eq_getElem_cons h]
  have h2 := List.get?_eq_getElem? l n
  rw [hc, List.getElem?_eq_getElem h] at h2
  have h3 : l[n] = c := by injection h2.symm
  rw [h3]

/-- With a word-character word next, the greedy gap is forced: any
shorter gap leaves the word's first character facing whitespace, so
matchRest of a nonempty tail is a single attempt at the end of the
whitespace run (and fails without a gap). -/
theorem matchRest_gap (w : List Char) (ws : List (List Char))
    (hw : ∀ c ∈ w, isWordChar c = true) (hne : w ≠ []) (p : Option Char) (l : List Char) :
    matchRest (w :: ws) p l =
      (if (l.takeWhile isJsSpace).length = 0 then none
       else
         match matchAtoms w none (l.drop (l.takeWhile isJsSpace).length) with
         | none => none
         | some (p2, r) => matchRest ws p2 r) := by
  rw [matchRest]
  by_cases h0 : (l.takeWhile isJsSpace).length = 0
  · rw [h0, if_pos rfl]
    rfl
  · rw [if_neg h0]
    have hlow : ∀ k, 1 ≤ k → k < (l.takeWhile isJsSpace).length →
        (match matchAtoms w (l.get? (k - 1)) (l.drop k) with
         | none => none
         | some (p2, r) => matchRest ws p2 r) = none := by
      intro k h1 h2
      obtain ⟨c, hc, hcs⟩ := get_takeWhile_ws l k h2
      have hdrop := drop_cons_of_get l k c hc
      have hcw : isWordChar c = false := by
        by_contra hcw
        rw [word_not_ws (by simpa using hcw)] at hcs
        cases hcs
      have hnone : matchAtoms w (l.get? (k - 1)) (l.drop k) = none := by
        apply matchAtoms_head_notword hw hne
        rw [hdrop]
        simpa [wordOpt] using hcw
      simp only [hnone]
    rw [firstSome_top _ _ (by omega) hlow]
    cases w with
    | nil => exact absurd rfl hne
    | cons a w2 =>
      rw [matchAtoms_prev a w2 (l.get? ((l.takeWhile isJsSpace).length - 1)) none]

/-- After a word character, a phrase of word-character keyword words
cannot start: the leading \b fails on a word-character text head, and a
non-word head fails the first keyword word. -/
theorem matchPhraseRe_true_none (kws : List (List Char))
    (hk : ∀ k ∈ kws, k ≠ [] ∧ ∀ c ∈ k, isWordChar c = true) (l : List Char) :
    matchPhraseRe kws true l = none := by
  cases kws with
  | nil => rfl
  | cons w ws =>
    obtain ⟨hwne, hwchars⟩ := hk w (by simp)
    rw [matchPhraseRe]
    by_cases hb : (true != wordOpt l.head?) = true
    · rw [if_pos hb]
      have hl : wordOpt l.head? = false := by
        cases h : wordOpt l.head?
        · rfl
        · rw [h] at hb
          cases hb
      rw [matchAtoms_head_notword hwchars hwne hl none]
    · rw [if_neg hb]

/-- On word-character keyword words the regex attempt is the literal
matcher: the leading \b forces a non-word previous character, each word
matches literally, and every gap is the full whitespace run (a shorter
gap leaves the next word facing whitespace). -/
theorem matchPhraseRe_eq_matchKws : ∀ (kws : List (List Char)),
    (∀ k ∈ kws, k ≠ [] ∧ ∀ c ∈ k, isWordChar c = true) → kws ≠ [] →
    ∀ l : List Char, matchPhraseRe kws false l = matchKws kws l
  | [], _, hne, _ => absurd rfl hne
  | w :: ws, hk, _, l => by
    obtain ⟨hwne, hwchars⟩ := hk w (by simp)
    have hwe : w.isEmpty = false := by
      cases w with
      | nil => exact absurd rfl hwne
      | cons _ _ => rfl
    rw [matchPhraseRe]
    have hcond : (false != wordOpt l.head?) = wordOpt l.head? := by
      cases wordOpt l.head? <;> rfl
    rw [hcond]
    by_cases hpre : isPrefixL w l = true
    · have hhead : wordOpt l.head? = true := by
        cases w with
        | nil => exact absurd rfl hwne
        | cons a w2 =>
          cases l with
          | nil =>
            rw [isPrefixL] at hpre
            cases hpre
          | cons x r =>
            rw [isPrefixL] at hpre
            simp only [Bool.and_eq_true, decide_eq_true_eq] at hpre
            have hx : isWordChar x = true := by
              rw [← hpre.1]
              exact hwchars a (by simp)
            simp [wordOpt, hx]
      rw [if_pos hhead]
      obtain ⟨ch, hch, hAt⟩ := (matchAtoms_lit w hwchars hwne none l).1 hpre
      rw [hAt]
      cases ws with
      | nil =>
        show matchRest [] (some ch) (l.drop w.length) = matchKws [w] l
        rw [matchRest]
        simp only [matchKws, hwe, hpre, Bool.false_eq_true, if_false, if_true]
        cases hdr : l.drop w.length with
        | nil => simp [wordOpt, hch]
        | cons c2 r2 =>
          simp only [wordOpt, List.head?, hch]
          by_cases hc2 : isWordChar c2 = true
          · simp [hc2]
          · simp [hc2, Bool.eq_false_iff.mp (by simpa using hc2)]
      | cons w2 ws' =>
        show matchRest (w2 :: ws') (some ch) (l.drop w.length) = matchKws (w :: w2 :: ws') l
        obtain ⟨hw2ne, hw2chars⟩ := hk w2 (by simp)
        rw [matchRest_gap w2 ws' hw2chars hw2ne]
        simp only [matchKws, hwe, hpre, Bool.false_eq_true, if_false, if_true]
        by_cases h0 : ((l.drop w.length).takeWhile isJsSpace).length = 0
        · rw [if_pos h0, if_pos h0]
        · rw [if_neg h0, if_neg h0]
          have IH := matchPhraseRe_eq_matchKws (w2 :: ws')
            (fun k hkm => hk k (List.mem_cons_of_mem w hkm)) (by simp)
            ((l.drop w.length).drop ((l.drop w.length).takeWhile isJsSpace).length)
          rw [← IH, matchPhraseRe]
          have hcond2 : (false != wordOpt ((l.drop w.length).drop
              ((l.drop w.length).takeWhile isJsSpace).length).head?) =
              wordOpt ((l.drop w.length).drop
                ((l.drop w.length).takeWhile isJsSpace).length).head? := by
            cases wordOpt ((l.drop w.length).drop
              ((l.drop w.length).takeWhile isJsSpace).length).head? <;> rfl
          rw [hcond2]
          by_cases hh : wordOpt ((l.drop w.length).drop
              ((l.drop w.length).takeWhile isJsSpace).length).head? = true
          · rw [if_pos hh]
          · rw [if_neg hh,
              matchAtoms_head_notword hw2chars hw2ne
                (Bool.eq_false_iff.mpr hh) none]
    · have hpf : isPrefixL w l = false := by simpa using hpre
      have hrhs : matchKws (w :: ws) l = none := by
        cases ws with
        | nil => simp [matchKws, hwe, hpf]
        | cons w2 ws' => simp [matchKws, hwe, hpf]
      rw [hrhs]
      by_cases hh : wordOpt l.head? = true
      · rw [if_pos hh, (matchAtoms_lit w hwchars hwne none l).2 hpf]
      · rw [if_neg hh]

/-- The element just before the end of a nonempty prefix block. -/
theorem get_last_of_append : ∀ (w : List Char), w ≠ [] → ∀ (t : List Char),
    ∃ ch, (w ++ t).get? (w.length - 1) = some ch ∧ ch ∈ w
  | [], hne, _ => absurd rfl hne
  | [a], _, t => ⟨a, rfl, by simp⟩
  | a :: b :: w2, _, t => by
    obtain ⟨ch, hch, hmem⟩ := get_last_of_append (b :: w2) (by simp) t
    refine ⟨ch, ?_, by simp [hmem]⟩
    simpa using hch

/-- A successful literal phrase match consumes a positive span whose
last character is a word character (the last character of the final
keyword word). -/
theorem matchKws_last : ∀ {kws : List (List Char)} {l r : List Char},
    (∀ k ∈ kws, k ≠ [] ∧ ∀ c ∈ k, isWordChar c = true) →
    matchKws kws l = some r →
    ∃ k, 0 < k ∧ k ≤ l.length ∧ r = l.drop k ∧
      ∃ ch, l.get? (k - 1) = some ch ∧ isWordChar ch = true
  | [], l, r, _, h => by simp [matchKws] at h
  | [kw], l, r, hk, h => by
    simp only [matchKws] at h
    split_ifs at h with h1 h2
    have hkpos : 0 < kw.length := length_pos_of_not_isEmpty h1
    have hkle : kw.length ≤ l.length := isPrefixL_length_le h2
    obtain ⟨hkne, hkchars⟩ := hk kw (by simp)
    have hlast : ∃ ch, l.get? (kw.length - 1) = some ch ∧ isWordChar ch = true := by
      obtain ⟨ch, hch, hmem⟩ := get_last_of_append kw hkne (l.drop kw.length)
      refine ⟨ch, ?_, hkchars ch hmem⟩
      conv_lhs => rw [isPrefixL_decomp h2]
      exact hch
    rcases hd : l.drop kw.length with _ | ⟨c, rest⟩
    · simp only [hd] at h
      injection h with h3
      exact ⟨kw.length, hkpos, hkle, by rw [← h3, hd], hlast⟩
    · simp only [hd] at h
      split_ifs at h with hw
      injection h with h3
      exact ⟨kw.length, hkpos, hkle, by rw [← h3, hd], hlast⟩
  | kw :: kw2 :: kws, l, r, hk, h => by
    simp only [matchKws] at h
    split_ifs at h with h1 h2 h3
    obtain ⟨k2, hk2pos, hk2le, hr, ch, hch, hchw⟩ :=
      matchKws_last (fun k hkm => hk k (List.mem_cons_of_mem kw hkm)) h
    have hkpos : 0 < kw.length := length_pos_of_not_isEmpty h1
    have hkle : kw.length ≤ l.length := isPrefixL_length_le h2
    refine ⟨k2 + ((l.drop kw.length).takeWhile isJsSpace).length + kw.length,
      by omega, ?_, ?_, ch, ?_, hchw⟩
    · have hwle : ((l.drop kw.length).takeWhile isJsSpace).length
          ≤ (l.drop kw.length).length := by
        calc ((l.drop kw.length).takeWhile isJsSpace).length
            ≤ ((l.drop kw.length).takeWhile isJsSpace).length
              + ((l.drop kw.length).dropWhile isJsSpace).length := Nat.le_add_right _ _
          _ = (l.drop kw.length).length := by
              rw [← List.length_append, List.takeWhile_append_dropWhile]
      simp only [List.length_drop] at hk2le hwle ⊢
      omega
    · rw [hr, List.drop_drop, List.drop_drop]
      congr 1
      omega
    · rw [List.get?_drop, List.get?_drop] at hch
      convert hch using 2
      omega

/-- Unwinding the skip counter of the regex scanner: after stepping over
s characters the flag holds the wordness of the last one stepped over. -/
theorem scanCountRe_skip (kws : List (List Char)) :
    ∀ (l : List Char) (s : Nat) (f : Bool) (ch : Char),
      l.get? (s - 1) = some ch → 1 ≤ s →
      scanCountRe kws s f l = scanCountRe kws 0 (isWordChar ch) (l.drop s)
  | [], s, f, ch, hch, hs => by simp at hch
  | x :: l, s, f, ch, hch, hs => by
    cases s with
    | zero => omega
    | succ s2 =>
      rw [scanCountRe]
      cases Nat.eq_zero_or_pos s2 with
      | inl h0 =>
        subst h0
        simp only [Nat.sub_self, List.get?] at hch
        injection hch with hch2
        subst hch2
        rfl
      | inr hpos =>
        have hch2 : l.get? (s2 - 1) = some ch := by
          have h2 : s2 = (s2 - 1) + 1 := by omega
          have h3 : (x :: l).get? (s2 + 1 - 1) = l.get? (s2 - 1) := by
            rw [Nat.add_sub_cancel]
            rw [h2]
            rfl
          rw [h3] at hch
          exact hch
        exact scanCountRe_skip kws l s2 (isWordChar x) ch hch2 hpos

/-- On word-character keyword words the regex scanner is the literal
scanner: attempts fail after a word character, each attempt is the
literal matcher, and a match's consumed span ends in a word character,
so the resumed flags agree. -/
theorem scanCountRe_eq_scanCount (kws : List (List Char))
    (hk : ∀ k ∈ kws, k ≠ [] ∧ ∀ c ∈ k, isWordChar c = true) (hne : kws ≠ []) :
    ∀ (N : Nat) (l : List Char), l.length ≤ N → ∀ pw : Bool,
      scanCountRe kws 0 pw l = scanCount kws 0 pw l := by
  intro N
  induction N with
  | zero =>
    intro l hl pw
    have h0 : l = [] := List.length_eq_zero.mp (Nat.le_zero.mp hl)
    subst h0
    rfl
  | succ N ih =>
    intro l hl pw
    cases l with
    | nil => rfl
    | cons c rest =>
      have hrest : rest.length ≤ N := by
        simp only [List.length_cons] at hl
        omega
      rw [scanCountRe, scanCount]
      cases pw with
      | true =>
        rw [matchPhraseRe_true_none kws hk, if_pos rfl]
        exact ih rest hrest (isWordChar c)
      | false =>
        rw [matchPhraseRe_eq_matchKws kws hk hne,
          if_neg (by exact Bool.false_ne_true)]
        cases hm : matchKws kws (c :: rest) with
        | none => exact ih rest hrest (isWordChar c)
        | some r =>
          obtain ⟨k, hkpos, hkle, hr, ch, hch, hchw⟩ := matchKws_last hk hm
          have hrlen : r.length = (c :: rest).length - k := by
            rw [hr, List.length_drop]
          have hskip : (c :: rest).length - r.length - 1 = k - 1 := by
            simp only [List.length_cons] at hrlen hkle ⊢
            omega
          show 1 + scanCountRe kws ((c :: rest).length - r.length - 1) (isWordChar c) rest
            = 1 + scanCount kws ((c :: rest).length - r.length - 1) true rest
          rw [hskip]
          congr 1
          cases Nat.eq_zero_or_pos (k - 1) with
          | inl h0 =>
            rw [h0]
            have hk1 : k = 1 := by omega
            rw [hk1] at hch
            simp only [Nat.sub_self, List.get?] at hch
            injection hch with hch2
            subst hch2
            rw [hchw]
            exact ih rest hrest true
          | inr hpos =>
            have hch2 : rest.get? (k - 1 - 1) = some ch := by
              have h2 : k - 1 = (k - 1 - 1) + 1 := by omega
              have h3 : (c :: rest).get? (k - 1) = rest.get? (k - 1 - 1) := by
                rw [h2]
                rfl
              rw [← h3]
              exact hch
            rw [scanCountRe_skip kws rest (k - 1) (isWordChar c) ch hch2 hpos,
              scanCount_skip kws rest (k - 1) true hpos, hchw]
            refine ih (rest.drop (k - 1)) ?_ true
            rw [List.length_drop]
            omega

/-- On word-character keyword words the regex match count equals the
literal match count. -/
theorem phraseMatchCountRe_eq (text : List Char) (kws : List (List Char))
    (hk : ∀ k ∈ kws, k ≠ [] ∧ ∀ c ∈ k, isWordChar c = true) (hne : kws ≠ []) :
    phraseMatchCountRe text kws = phraseMatchCount text kws :=
  scanCountRe_eq_scanCount kws hk hne text.length text le_rfl false

/-- C10 counterexample: the multi-word keyword "a. b" has a regex
metacharacter in a keyword word, and the source splices keyword words
into the RegExp unescaped, so the phrase regex is \ba.\s+b\b whose '.'
wildcard matches both "ax b" and "ay b" in the content "ax b ay b": two
exact phrase matches.  Yet no token window passes the 70% test ("ax" and
"ay" neither contain nor are contained in "a."), so primaryKeywordCount
is 2 + floor(0 * 0.5) = 2, which does NOT strictly exceed the two exact
occurrences as the claim asserts for every multi-word keyword. -/
theorem c10_metachar_cex :
    2 ≤ (keywordWordsOf "a. b").length ∧
    phraseMatchCountRe (normalizeText "ax b ay b") (keywordWordsOf "a. b") = 2 ∧
    countPartialWindows (keywordWordsOf "a. b")
      (splitWsKeep (normalizeText "ax b ay b")) = 0 ∧
    (analyzeKeywords "ax b ay b" "a. b" none).primaryKeywordCount = 2 ∧
    ¬(phraseMatchCountRe (normalizeText "ax b ay b") (keywordWordsOf "a. b") <
        (analyzeKeywords "ax b ay b" "a. b" none).primaryKeywordCount) := by
  refine ⟨by decide, by decide, by decide, by decide, by decide⟩

/-- C10 (amended): for a multi-word target keyword whose words consist
of word characters (so the spliced regex matches the phrase literally)
and nonempty content and keyword, every token window equal to the
keyword word list passes the 70% partial-match test; the partial-match
count is at least the exact regex match count; primaryKeywordCount
equals exactMatches + floor(partialMatches / 2) and hence is at least
exactMatches + floor(exactMatches / 2); and when the phrase occurs at
least twice the reported count strictly exceeds the exact occurrence
count.  For keyword words with regex metacharacters the strict bound
fails (see the counterexample). -/
theorem c10_wordchar_partial_ge_exact (content targetKeyword : String)
    (cachedWords : Option Nat)
    (hc : (jsTrim content.data).isEmpty = false)
    (hkw : (jsTrim targetKeyword.data).isEmpty = false)
    (hmulti : 2 ≤ (keywordWordsOf targetKeyword).length)
    (hwchars : ∀ k ∈ keywordWordsOf targetKeyword, ∀ ch ∈ k, isWordChar ch = true) :
    (∀ slice ∈ slidingWindows (keywordWordsOf targetKeyword).length
        (splitWsKeep (normalizeText content)),
      slice = keywordWordsOf targetKeyword →
        windowPass (keywordWordsOf targetKeyword) slice = true) ∧
    phraseMatchCountRe (normalizeText content) (keywordWordsOf targetKeyword) ≤
      countPartialWindows (keywordWordsOf targetKeyword)
        (splitWsKeep (normalizeText content)) ∧
    (analyzeKeywords content targetKeyword cachedWords).primaryKeywordCount =
      phraseMatchCountRe (normalizeText content) (keywordWordsOf targetKeyword) +
        countPartialWindows (keywordWordsOf targetKeyword)
          (splitWsKeep (normalizeText content)) / 2 ∧
    phraseMatchCountRe (normalizeText content) (keywordWordsOf targetKeyword) +
        phraseMatchCountRe (normalizeText content) (keywordWordsOf targetKeyword) / 2 ≤
      (analyzeKeywords content targetKeyword cachedWords).primaryKeywordCount ∧
    (2 ≤ phraseMatchCountRe (normalizeText content) (keywordWordsOf targetKeyword) →
      phraseMatchCountRe (normalizeText content) (keywordWordsOf targetKeyword) <
        (analyzeKeywords content targetKeyword cachedWords).primaryKeywordCount) := by
  set kws := keywordWordsOf targetKeyword with hkws
  set text := normalizeText content with htext
  have hn : 1 ≤ kws.length := le_trans (by omega) hmulti
  have hk : ∀ k ∈ kws, k ≠ [] ∧ ∀ c ∈ k, isWordChar c = true :=
    fun k hkm => ⟨keywordWordsOf_ne_nil targetKeyword k hkm, hwchars k hkm⟩
  have hkne : kws ≠ [] := by
    intro h0
    rw [h0] at hn
    simp at hn
  have hbr : phraseMatchCountRe text kws = phraseMatchCount text kws :=
    phraseMatchCountRe_eq text kws hk hkne
  rw [hbr]
  have hA : ∀ slice ∈ slidingWindows kws.length (splitWsKeep text),
      slice = kws → windowPass kws slice = true := by
    intro slice _ heq
    rw [heq]
    exact windowPass_self kws
  have hB : phraseMatchCount text kws ≤ countPartialWindows kws (splitWsKeep text) := by
    have h1 := scanCount_le_eq_windows kws hk hn text.length text le_rfl
      (normalizeText_ok content) false
    rw [show (if (false : Bool) then text.dropWhile isWordChar else text) = text
      from rfl] at h1
    obtain ⟨a, b, hdcomp, -⟩ := splitWsKeep_decomp text.length text le_rfl
    have h2 : List.countP (fun s => decide (s = kws))
        (slidingWindows kws.length (splitWs text)) ≤
        List.countP (fun s => decide (s = kws))
          (slidingWindows kws.length (splitWsKeep text)) := by
      rw [hdcomp, List.append_assoc]
      exact le_trans (countP_windows_append _ hn (splitWs text) b)
        (countP_windows_after _ hn a (splitWs text ++ b))
    have h3 : List.countP (fun s => decide (s = kws))
        (slidingWindows kws.length (splitWsKeep text)) ≤
        List.countP (windowPass kws) (slidingWindows kws.length (splitWsKeep text)) := by
      apply countP_mono_of_imp
      intro s hs hps
      exact hA s hs (of_decide_eq_true hps)
    exact le_trans h1 (le_trans h2 h3)
  have hC : (analyzeKeywords content targetKeyword cachedWords).primaryKeywordCount =
      phraseMatchCount text kws + countPartialWindows kws (splitWsKeep text) / 2 := by
    unfold analyzeKeywords
    rw [if_neg (by rw [hc]; exact Bool.false_ne_true),
      if_neg (by rw [hkw]; exact Bool.false_ne_true)]
    show primaryKeywordCountOf content targetKeyword = _
    unfold primaryKeywordCountOf
    rw [if_neg (by rw [← hkws]; omega)]
    rw [← htext, ← hkws]
    show phraseMatchCountRe text kws + countPartialWindows kws (splitWsKeep text) / 2 = _
    rw [hbr]
  exact ⟨hA, hB, hC, by omega, by omega⟩

/-- C10 witness: content "coffee maker one two coffee maker" and keyword
"coffee maker" satisfy the hypotheses; two exact matches, and the
reported count 3 strictly exceeds them. -/
theorem c10_wordchar_witness :
    2 ≤ phraseMatchCountRe (normalizeText "coffee maker one two coffee maker")
        (keywordWordsOf "coffee maker") ∧
    phraseMatchCountRe (normalizeText "coffee maker one two coffee maker")
        (keywordWordsOf "coffee maker") <
      (analyzeKeywords "coffee maker one two coffee maker" "coffee maker"
        none).primaryKeywordCount := by
  refine ⟨by decide, ?_⟩
  exact (c10_wordchar_partial_ge_exact "coffee maker one two coffee maker" "coffee maker"
    none (by decide) (by decide) (by decide) (by decide)).2.2.2.2 (by decide)
